import Mathlib

/-!
Verification of the `OperatingSystems678` scheduler core
(`src/libpriqueue/libpriqueue.c` and `src/libscheduler/libscheduler.c`)
against its natural-language specification.

The C code is embedded shallowly:

* the linked priority queue becomes a `List α` together with pure functions
  mirroring `priqueue_offer`, `priqueue_at`, `priqueue_remove_at`,
  `priqueue_size`;
* `job_t` objects live on an explicit heap (an association list keyed by
  allocation order), so that the pointer aliasing between the queue and the
  per-core slots of the C code is modelled exactly: the queue and the core
  array store heap keys, and mutating a job through one reference is visible
  through the other;
* C `int` is modelled as `Int` (no arithmetic in this code comes near the
  32-bit boundary on the traces and states considered);
* executions that read a null, dangling or uninitialized pointer, or index
  outside an array, are undefined behaviour in C; the corresponding model
  functions return `none` at exactly those points.
-/

/- ## The priority queue (`libpriqueue.c`)

The queue is a singly linked list of `node_t`, embedded as `List α`.
`q->size` is maintained equal to the list length, so `priqueue_size` is
`List.length`. -/

/-- The insertion loop of `priqueue_offer` (lines 83-98), starting with
`cNode = c` at zero-based position `i` and the nodes after `cNode` being
`rest`.  The C loop is bounded by `i < priqueue_size(q)`, modelled by the
`fuel` argument; if the bound is hit the C function falls through to
`return -1` without inserting, modelled by `none`.  Otherwise it returns
the C return value (the position `i` of the node it inserted after) and
the rebuilt suffix. -/
def offerGo (comp : α → α → Int) (x : α) : α → List α → Nat → Nat → Option (Nat × List α)
  | _, _, _, 0 => none
  | c, [], i, _ + 1 => some (i, [c, x])
  | c, e :: rest, i, fuel + 1 =>
    if comp x e < 0 then some (i, c :: x :: e :: rest)
    else (offerGo comp x e rest (i + 1) fuel).map fun r => (r.1, c :: r.2)

/-- `priqueue_offer` for a non-null item (lines 53-103): front insertion when
the queue is empty or the item compares before the head, otherwise the scan
loop with fuel `q->size`.  Returns the C return value and the new queue.
(The `ptr == NULL` rejection at lines 56-59 is handled at the call sites:
the scheduler only ever offers freshly allocated, non-null jobs.) -/
def priqueue_offer (comp : α → α → Int) (q : List α) (x : α) : Int × List α :=
  match q with
  | [] => (0, [x])
  | h :: t =>
    if comp x h < 0 then (0, x :: h :: t)
    else
      match offerGo comp x h t 0 (h :: t).length with
      | some r => ((r.1 : Int), r.2)
      | none => (-1, h :: t)

/-- `priqueue_size` (lines 283-286): the maintained size counter, equal to
the length of the node list. -/
def priqueue_size (q : List α) : Int := (q.length : Int)

/-- `priqueue_at` (lines 160-180).  The C bounds check is
`index > priqueue_size(q) || index < 0` — note the strict `>`, not `>=` — so
`index == size` passes the check, the traversal walks off the last node and
`cNode->data` dereferences a null pointer: that execution is `none`.
A rejected index returns NULL, i.e. `some none`; an in-range index returns
its element, `some (some a)`. -/
def priqueue_at (q : List α) (index : Int) : Option (Option α) :=
  if priqueue_size q < index ∨ index < 0 then some none
  else
    match q.get? index.toNat with
    | some a => some (some a)
    | none => none

/-- `priqueue_remove_at` (lines 237-275).  Same off-by-one bounds check as
`priqueue_at`: `index == size` passes it, and the code then dereferences a
null pointer (`cNode` when the queue is empty, `removeNode` otherwise) —
`none`.  A rejected index returns NULL and leaves the queue unchanged,
`some (none, q)`; an in-range index removes and returns that element. -/
def priqueue_remove_at (q : List α) (index : Int) : Option (Option α × List α) :=
  if priqueue_size q < index ∨ index < 0 then some (none, q)
  else
    match q.get? index.toNat with
    | some a => some (some a, q.eraseIdx index.toNat)
    | none => none

/- ### Characterisation of `priqueue_offer` -/

/-- Modelled from the spec: the landing position promised by the spec's
description of `insert` — the index of the first existing element `e` with
`comparator(item, e) < 0`, or the length of the queue if none qualifies. -/
def insertPos (comp : α → α → Int) (x : α) : List α → Nat
  | [] => 0
  | e :: rest => if comp x e < 0 then 0 else insertPos comp x rest + 1

theorem insertPos_le_length (comp : α → α → Int) (x : α) :
    ∀ q : List α, insertPos comp x q ≤ q.length
  | [] => Nat.le_refl 0
  | e :: rest => by
    by_cases h : comp x e < 0 <;> simp [insertPos, h]
    exact insertPos_le_length comp x rest

theorem offerGo_spec (comp : α → α → Int) (x : α) :
    ∀ (c : α) (rest : List α) (i fuel : Nat), rest.length < fuel →
      offerGo comp x c rest i fuel =
        some (i + insertPos comp x rest,
              (c :: rest).insertIdx (insertPos comp x rest + 1) x) := by
  intro c rest
  induction rest generalizing c with
  | nil =>
    intro i fuel hf
    match fuel, hf with
    | f + 1, _ => simp [offerGo, insertPos, List.insertIdx]
  | cons e rest ih =>
    intro i fuel hf
    match fuel, hf with
    | f + 1, hf =>
      by_cases h : comp x e < 0
      · simp [offerGo, insertPos, h, List.insertIdx]
      · have hrest : rest.length < f := by
          simpa [Nat.succ_lt_succ_iff] using hf
        simp only [offerGo, h, if_false, ih e (i + 1) f hrest, Option.map_some',
          Option.some.injEq, Prod.mk.injEq, insertPos, List.insertIdx_succ_cons, and_true]
        omega

/-- The full characterisation of `priqueue_offer`: the item always lands at
`insertPos` (the spec's promised position), and the C return value is that
position when it is the front, and that position minus one otherwise (the
index of the node it was inserted after). -/
theorem priqueue_offer_spec (comp : α → α → Int) (q : List α) (x : α) :
    priqueue_offer comp q x =
      (if insertPos comp x q = 0 then 0 else (insertPos comp x q : Int) - 1,
       q.insertIdx (insertPos comp x q) x) := by
  match q with
  | [] => simp [priqueue_offer, insertPos]
  | h :: t =>
    by_cases hh : comp x h < 0
    · simp [priqueue_offer, insertPos, hh]
    · have ht : t.length < (h :: t).length := by simp
      have hpos : insertPos comp x (h :: t) = insertPos comp x t + 1 := by
        simp [insertPos, hh]
      simp only [priqueue_offer, hh, if_false, offerGo_spec comp x h t 0 _ ht, hpos,
        Prod.mk.injEq]
      refine ⟨?_, trivial⟩
      simp only [Nat.add_eq_zero, Nat.zero_add, and_false, if_false]
      omega

theorem priqueue_offer_perm (comp : α → α → Int) (q : List α) (x : α) :
    (priqueue_offer comp q x).2.Perm (x :: q) := by
  rw [priqueue_offer_spec]
  exact List.perm_insertIdx x q (insertPos_le_length comp x q)

theorem priqueue_offer_length (comp : α → α → Int) (q : List α) (x : α) :
    (priqueue_offer comp q x).2.length = q.length + 1 := by
  rw [priqueue_offer_spec]
  exact List.length_insertIdx _ _ (insertPos_le_length comp x q)

/- ## The scheduler (`libscheduler.c`) -/

/-- `scheme_t` (from `libscheduler.h`): the six scheduling disciplines. -/
inductive Scheme where
  | FCFS | SJF | PSJF | PRI | PPRI | RR
deriving DecidableEq, Repr

/-- `job_t` (lines 16-31): one job with its statistics.  All fields are C
`int`s.  The C code leaves `t_waiting` and `t_end` uninitialized at
allocation and first writes them before any defined read; the model
constructs them as `0`. -/
structure Job where
  t_arrival : Int
  t_total : Int
  t_remaining : Int
  t_waiting : Int
  t_updated : Int
  t_started : Int
  t_end : Int
  job_id : Int
  priority : Int
  j_core : Int
deriving DecidableEq, Repr

/-- The heap of allocated `job_t` objects, keyed by allocation order.  A key
plays the role of the C pointer: the job queue and the core slots both store
keys, so mutation through one alias is seen through the other, exactly as in
the C code. -/
def Heap := Nat -> Option Job

/-- Dereference a pointer: `none` when the key was never allocated or has
been freed (a dangling pointer in the C code). -/
def hget (h : Heap) (k : Nat) : Option Job := h k

/-- Write the job object behind pointer `k`: used both for `malloc` (with a
fresh key) and for field assignments through a live pointer. -/
def hput (h : Heap) (k : Nat) (j : Job) : Heap :=
  fun q => if q = k then some j else h q

/-- `free` the job object behind pointer `k`. -/
def hdel (h : Heap) (k : Nat) : Heap :=
  fun q => if q = k then none else h q

/-- The empty heap. -/
def hempty : Heap := fun _ => none

theorem hget_hput (h : Heap) (k : Nat) (j : Job) (q : Nat) :
    hget (hput h k j) q = if q = k then some j else hget h q := rfl

theorem hget_hdel (h : Heap) (k : Nat) (q : Nat) :
    hget (hdel h k) q = if q = k then none else hget h q := rfl

/-- The global state of `libscheduler.c` (lines 33-44): the job queue
(a `priqueue_t` of `job_t*`), the core array `c_cores` (`n_cores` is its
length), the active scheme, the clock `c_time`, the submitted-job counter
`n_jobs`, and the three running statistic sums.  The sums are C `float`s
accumulating integer-valued differences; they are modelled as exact
integers (`Int`). -/
structure SchedState where
  alloc : Nat
  heap : Heap
  queue : List Nat
  slots : List (Option Nat)
  t_scheme : Scheme
  c_time : Int
  n_jobs : Int
  t_wait : Int
  t_turnaround : Int
  t_response : Int

/-- `comparer` (lines 508-568), the discipline-encoding comparator.  Its
arguments are the job to insert (`p1`) and an existing queue element (`p2`).
The `job_2 == NULL` test at lines 512-515 can never fire: the queue never
holds a null pointer because `priqueue_offer` rejects NULL. -/
def comparer (sch : Scheme) (job_1 job_2 : Job) : Int :=
  match sch with
  | .FCFS => 1
  | .SJF =>
    if job_1.t_total < job_2.t_remaining ∧ job_2.t_started = -1 then -1 else 1
  | .PSJF => if job_1.t_remaining < job_2.t_remaining then -1 else 1
  | .PRI =>
    if job_1.priority < job_2.priority ∧ job_2.t_started = -1 then -1 else 1
  | .PPRI => if job_1.priority < job_2.priority then -1 else 1
  | .RR => 1

/-- A placeholder job used only to type the comparator on pointers; it is
never compared on any defined execution (the queue only holds live keys
whenever `priqueue_offer` runs). -/
def deadJob : Job := ⟨0, 0, 0, 0, 0, 0, 0, 0, 0, 0⟩

/-- The comparator as the queue sees it: it receives the two `void*`
pointers and reads the job objects behind them. -/
def compK (sch : Scheme) (h : Heap) (k1 k2 : Nat) : Int :=
  comparer sch ((hget h k1).getD deadJob) ((hget h k2).getD deadJob)

/-- The body of the `increment_timestep` loop (lines 576-591) for one core's
running job, at current time `t`. -/
def tick1 (t : Int) (j : Job) : Job :=
  if j.t_started = -1 ∧ j.t_updated ≠ t then
    { j with t_started := j.t_updated }
  else
    { j with t_remaining := j.t_remaining - (t - j.t_updated), t_updated := t }

/-- The `increment_timestep` loop over the core array in ascending index
order; `none` when a core slot holds a dangling pointer. -/
def tickSlots (t : Int) : Heap → List (Option Nat) → Option Heap
  | h, [] => some h
  | h, none :: rest => tickSlots t h rest
  | h, some k :: rest =>
    match hget h k with
    | some j => tickSlots t (hput h k (tick1 t j)) rest
    | none => none

/-- `increment_timestep` (lines 570-593): the clock-advance step run at the
start of every event. -/
def increment_timestep (s : SchedState) : Option SchedState :=
  (tickSlots s.c_time s.heap s.slots).map fun h => { s with heap := h }

/-- `scheduler_start_up` (lines 58-78).  The globals `n_jobs` and the sums
start at their zero-initialized values. -/
def scheduler_start_up (cores : Nat) (scheme : Scheme) : SchedState :=
  { alloc := 0, heap := hempty, queue := [], slots := List.replicate cores none,
    t_scheme := scheme, c_time := 0, n_jobs := 0,
    t_wait := 0, t_turnaround := 0, t_response := 0 }

/-- The free-core scan of `scheduler_new_job` (lines 120-124): the lowest
index holding no job, `none` when every core is busy. -/
def freeCore : List (Option Nat) → Option Nat
  | [] => none
  | none :: _ => some 0
  | some _ :: rest => (freeCore rest).map (· + 1)

/-- Read the job behind every core slot, for the preemption scans (which
dereference `c_cores->c_job[i]` for every `i`).  `none` if some slot is a
null or dangling pointer — on the scan paths every slot is occupied, so a
null slot cannot occur there. -/
def slotJobs (h : Heap) : List (Option Nat) → Option (List Job)
  | [] => some []
  | none :: _ => none
  | some k :: rest =>
    match hget h k with
    | some j => (slotJobs h rest).map fun l => j :: l
    | none => none

/-- The PSJF eviction scan (lines 143-158) over the remaining core jobs,
current index `i`, accumulators `coretochange` and `corejoblength`;
`rt` is the arriving job's `t_remaining`. -/
def psjfScan (rt : Int) : List Job → Nat → Int → Int → Int
  | [], _, ct, _ => ct
  | j :: rest, i, ct, cl =>
    if j.t_remaining > rt then
      if j.t_remaining > cl then psjfScan rt rest (i + 1) (i : Int) j.t_remaining
      else psjfScan rt rest (i + 1) ct cl
    else psjfScan rt rest (i + 1) ct cl

/-- The PPRI eviction scan (lines 159-182): `all` is the full list of core
jobs (for the re-read of `c_cores->c_job[coretochange]` in the tie branch at
line 174), `p` the arriving job's priority.  When the tie branch fires with
`coretochange` still `-1`, the C code indexes the core array at `-1`:
undefined behaviour, `none`.  (That needs `corepriority = -1`, hence an
arriving priority below `-1`.) -/
def ppriScan (all : List Job) (p : Int) : List Job → Nat → Int → Int → Option Int
  | [], _, ct, _ => some ct
  | j :: rest, i, ct, cp =>
    if j.priority > p then
      if j.priority > cp then ppriScan all p rest (i + 1) (i : Int) j.priority
      else if j.priority = cp then
        if ct < 0 then none
        else
          match all.get? ct.toNat with
          | none => none
          | some jct =>
            if j.t_arrival > jct.t_arrival then ppriScan all p rest (i + 1) (i : Int) cp
            else ppriScan all p rest (i + 1) ct cp
      else ppriScan all p rest (i + 1) ct cp
    else ppriScan all p rest (i + 1) ct cp

/-- The `job_t` fields written at lines 103-111 on arrival (`t_waiting` and
`t_end` are left uninitialized by the C code and first written before any
defined read; `0` is a placeholder). -/
def newJobMalloc (job_number time running_time priority : Int) : Job :=
  { t_arrival := time, t_total := running_time, t_remaining := running_time,
    t_waiting := 0, t_updated := -1, t_started := -1, t_end := 0,
    job_id := job_number, priority := priority, j_core := -1 }

/-- The fields written when the arriving job is put on a core, both on the
idle-core path (lines 132-135) and on the preemption path (lines 187-190). -/
def runJob (time : Int) (job : Job) (core : Int) : Job :=
  { job with
    t_waiting := 0, t_started := time, t_updated := time, j_core := core }

/-- The fields written to the evicted job on the preemption path
(lines 192-200): the core assignment is unset, the update time stamped, and
if the job had been started on this very timestep, its start (and update)
timestamps are reset to the unset sentinel. -/
def evictJob (time : Int) (old : Job) : Job :=
  if old.t_started = time then
    { old with j_core := -1, t_started := -1, t_updated := -1 }
  else
    { old with j_core := -1, t_updated := time }

/-- The eviction-candidate selection of lines 142-182: the PSJF and PPRI
scans, and `coretochange = -1` for every other scheme. -/
def evictionScan (sch : Scheme) (cjobs : List Job) (rt pr : Int) : Option Int :=
  match sch with
  | .PSJF => some (psjfScan rt cjobs 0 (-1) (-1))
  | .PPRI => ppriScan cjobs pr cjobs 0 (-1) (-1)
  | _ => some (-1)

/-- The state built by the idle-core dispatch of `scheduler_new_job`
(lines 130-139): the new job starts on core `i`, occupies the slot, and is
offered to the queue. -/
def newJobFreeState (s : SchedState) (job : Job) (i : Nat) : SchedState :=
  { s with
    alloc := s.alloc + 1,
    heap := hput s.heap s.alloc (runJob s.c_time job (i : Int)),
    slots := s.slots.set i (some s.alloc),
    queue := (priqueue_offer
      (compK s.t_scheme (hput s.heap s.alloc (runJob s.c_time job (i : Int))))
      s.queue s.alloc).2 }

/-- The state built by the no-eviction branch of `scheduler_new_job`
(lines 210-212): the job is only enqueued, unscheduled. -/
def newJobEnqueueState (s : SchedState) (job : Job) : SchedState :=
  { s with
    alloc := s.alloc + 1,
    heap := hput s.heap s.alloc job,
    queue := (priqueue_offer (compK s.t_scheme (hput s.heap s.alloc job))
      s.queue s.alloc).2 }

/-- The state built by the preemption branch of `scheduler_new_job`
(lines 184-207): the running job `old` behind pointer `kOld` on core `ctv`
is evicted, the new job takes the core and is enqueued. -/
def newJobPreemptState (s : SchedState) (job : Job) (ctv : Int) (kOld : Nat)
    (old : Job) : SchedState :=
  { s with
    alloc := s.alloc + 1,
    heap := hput (hput s.heap kOld (evictJob s.c_time old)) s.alloc
      (runJob s.c_time job ctv),
    slots := s.slots.set ctv.toNat (some s.alloc),
    queue := (priqueue_offer
      (compK s.t_scheme (hput (hput s.heap kOld (evictJob s.c_time old)) s.alloc
        (runJob s.c_time job ctv)))
      s.queue s.alloc).2 }

/-- The body of `scheduler_new_job` after the clock advance (`s` is the
advanced state, so `s.c_time` is the arrival time). -/
def newJobCore (s : SchedState) (job : Job) : Option (Int × SchedState) :=
  match freeCore s.slots with
  | some i => some ((i : Int), newJobFreeState s job i)
  | none =>
    match slotJobs s.heap s.slots with
    | none => none
    | some cjobs =>
      match evictionScan s.t_scheme cjobs job.t_remaining job.priority with
      | none => none
      | some ctv =>
        if ctv = -1 then some (-1, newJobEnqueueState s job)
        else
          match s.slots.get? ctv.toNat with
          | some (some kOld) =>
            match hget s.heap kOld with
            | some old => some (ctv, newJobPreemptState s job ctv kOld old)
            | none => none
          | _ => none

/-- `scheduler_new_job` (lines 100-213): count the job, advance the clock to
the arrival time, then dispatch, preempt or enqueue.  Returns the C return
value and the state after the call; `none` on an execution whose C
counterpart is undefined. -/
def scheduler_new_job (s0 : SchedState)
    (job_number time running_time priority : Int) : Option (Int × SchedState) :=
  (increment_timestep { s0 with c_time := time, n_jobs := s0.n_jobs + 1 }).bind
    fun s => newJobCore s (newJobMalloc job_number time running_time priority)

/-- The job-search loops of `scheduler_job_finished` (lines 237-249) and
`scheduler_quantum_expired` (lines 342-375): the zero-based position and
pointer of the first queue element whose `job_id` equals `id`.  `some none`
when the scan completes without a match; `none` when the scan dereferences a
dangling pointer. -/
def findJobIdx (h : Heap) (id : Int) : List Nat → Nat → Option (Option (Nat × Nat))
  | [], _ => some none
  | k :: rest, i =>
    match hget h k with
    | none => none
    | some j =>
      if j.job_id = id then some (some (i, k)) else findJobIdx h id rest (i + 1)

/-- The next-job search loops (lines 271-288 and 378-408): the first queue
element whose job is not assigned to a core.  `some none` when no queued job
is unassigned; `none` on a dangling pointer. -/
def findUnassigned (h : Heap) : List Nat → Option (Option Nat)
  | [] => some none
  | k :: rest =>
    match hget h k with
    | none => none
    | some j => if j.j_core = -1 then some (some k) else findUnassigned h rest

/-- The dispatch bookkeeping shared by lines 293-309 and 387-403: start or
resume the chosen job at time `t` on core `cid`. -/
def dispatchOn (t : Int) (cid : Nat) (j : Job) : Job :=
  if j.t_started = -1 then
    { j with
      t_started := t, t_updated := t, t_waiting := t - j.t_arrival,
      j_core := (cid : Int) }
  else
    { j with
      t_waiting := j.t_waiting + (t - j.t_updated), t_updated := t,
      j_core := (cid : Int) }

/-- The state after dispatching the queued job behind pointer `k` on core
`cid`. -/
def dispatchState (s : SchedState) (cid : Nat) (k : Nat) (j : Job) : SchedState :=
  { s with
    heap := hput s.heap k (dispatchOn s.c_time cid j),
    slots := s.slots.set cid (some k) }

/-- The common tail of `scheduler_job_finished` (lines 270-316) and
`scheduler_quantum_expired` (lines 377-410): find the first unassigned
queued job, dispatch it on core `cid`, and return its id, or return `-1`
leaving the core as it is. -/
def dispatchNext (s : SchedState) (cid : Nat) : Option (Int × SchedState) :=
  match findUnassigned s.heap s.queue with
  | none => none
  | some none => some (-1, s)
  | some (some k) =>
    match hget s.heap k with
    | none => none
    | some j => some ((dispatchOn s.c_time cid j).job_id, dispatchState s cid k j)

/-- The state after lines 245-262 of `scheduler_job_finished`: the finished
job `fin` (queue position `i`, pointer `k`) is removed from the queue, its
statistics are added to the running sums, it is freed (so its
`t_end := time` write dies with the object), and core `cid` is emptied. -/
def finishRemoveState (s : SchedState) (i : Nat) (k : Nat) (fin : Job)
    (cid : Nat) : SchedState :=
  { s with
    queue := s.queue.eraseIdx i,
    t_turnaround := s.t_turnaround + (s.c_time - fin.t_arrival),
    t_wait := s.t_wait + fin.t_waiting,
    t_response := s.t_response + (fin.t_started - fin.t_arrival),
    heap := hdel s.heap k,
    slots := s.slots.set cid none }

/-- The body of `scheduler_job_finished` after the clock advance.  When
`job_number` matches no queue element, the C code reads an uninitialized
pointer (empty queue) or finalizes, frees and then re-reads the last
examined job while it is still in the queue (non-empty queue): undefined
behaviour either way, `none`.  An out-of-range `core_id` writes outside
the core array: `none`. -/
def finishCore (s : SchedState) (core_id job_number : Int) :
    Option (Int × SchedState) :=
  match findJobIdx s.heap job_number s.queue 0 with
  | none => none
  | some none => none
  | some (some (i, k)) =>
    match hget s.heap k with
    | none => none
    | some fin =>
      if 0 ≤ core_id ∧ core_id.toNat < s.slots.length then
        if (s.queue.eraseIdx i).length = 0 then
          -- lines 264-268: empty queue keeps the core idle
          some (-1, finishRemoveState s i k fin core_id.toNat)
        else dispatchNext (finishRemoveState s i k fin core_id.toNat) core_id.toNat
      else none

/-- `scheduler_job_finished` (lines 229-317). -/
def scheduler_job_finished (s0 : SchedState) (core_id job_number time : Int) :
    Option (Int × SchedState) :=
  (increment_timestep { s0 with c_time := time }).bind
    fun s => finishCore s core_id job_number

/-- The state after the rotation branch of `scheduler_quantum_expired`
(lines 352-358): the unfinished job `act` (queue position `i`, pointer `k`)
comes off its core and is re-offered to the queue. -/
def quantumRequeueState (s : SchedState) (i : Nat) (k : Nat) (act : Job) :
    SchedState :=
  { s with
    heap := hput s.heap k { act with j_core := -1, t_updated := s.c_time },
    queue := (priqueue_offer
      (compK s.t_scheme (hput s.heap k { act with j_core := -1, t_updated := s.c_time }))
      (s.queue.eraseIdx i) k).2 }

/-- The state after the completion branch of `scheduler_quantum_expired`
(lines 359-371): the job ended exactly on the quantum boundary and is
finalized as in `scheduler_job_finished`. -/
def quantumFinishState (s : SchedState) (i : Nat) (k : Nat) (act : Job)
    (cid : Nat) : SchedState :=
  { s with
    queue := s.queue.eraseIdx i,
    t_turnaround := s.t_turnaround + (s.c_time - act.t_arrival),
    t_wait := s.t_wait + act.t_waiting,
    t_response := s.t_response + (act.t_started - act.t_arrival),
    heap := hdel s.heap k,
    slots := s.slots.set cid none }

/-- The body of `scheduler_quantum_expired` after the clock advance.  With
an empty queue both loops are skipped and the core slot is never read, so
the call returns `-1`.  Otherwise a null or dangling `c_job[core_id]`, or an
out-of-range `core_id`, is dereferenced on the first loop iteration:
`none`. -/
def quantumCore (s : SchedState) (core_id : Int) : Option (Int × SchedState) :=
  if s.queue.length = 0 then some (-1, s)
  else
    if 0 ≤ core_id ∧ core_id.toNat < s.slots.length then
      match s.slots.get? core_id.toNat with
      | none => none
      | some none => none
      | some (some kRun) =>
        match hget s.heap kRun with
        | none => none
        | some run =>
          match findJobIdx s.heap run.job_id s.queue 0 with
          | none => none
          | some none => dispatchNext s core_id.toNat
          | some (some (i, k)) =>
            match hget s.heap k with
            | none => none
            | some act =>
              if act.t_remaining ≠ 0 then
                dispatchNext (quantumRequeueState s i k act) core_id.toNat
              else
                dispatchNext (quantumFinishState s i k act core_id.toNat)
                  core_id.toNat
    else none

/-- `scheduler_quantum_expired` (lines 332-411). -/
def scheduler_quantum_expired (s0 : SchedState) (core_id time : Int) :
    Option (Int × SchedState) :=
  (increment_timestep { s0 with c_time := time }).bind
    fun s => quantumCore s core_id

/-- `scheduler_average_waiting_time` (lines 420-430).  The C sums are
`float`s holding integer values; the division is modelled exactly over
`Rat`. -/
def scheduler_average_waiting_time (s : SchedState) : Rat :=
  if s.t_wait ≠ 0 then (s.t_wait : Rat) / (s.n_jobs : Rat) else 0

/-- `scheduler_average_turnaround_time` (lines 439-449). -/
def scheduler_average_turnaround_time (s : SchedState) : Rat :=
  if s.t_turnaround ≠ 0 then (s.t_turnaround : Rat) / (s.n_jobs : Rat) else 0

/-- `scheduler_average_response_time` (lines 458-468). -/
def scheduler_average_response_time (s : SchedState) : Rat :=
  if s.t_response ≠ 0 then (s.t_response : Rat) / (s.n_jobs : Rat) else 0

/- ## Concrete traces used by several claims -/

/-- FCFS on one core: job 1 arrives at t=0 with run length 5. -/
def after1 : Option (Int × SchedState) :=
  scheduler_new_job (scheduler_start_up 1 Scheme.FCFS) 1 0 5 0

/-- ... then job 2 arrives at t=1 with run length 3. -/
def after2 : Option (Int × SchedState) :=
  after1.bind fun r => scheduler_new_job r.2 2 1 3 0

/-- ... then job 1 finishes on core 0 at t=5. -/
def after3 : Option (Int × SchedState) :=
  after2.bind fun r => scheduler_job_finished r.2 0 1 5

/-- The scheduler state after `after1` (defined; the fallback is never
reached). -/
def after1State : SchedState :=
  match after1 with
  | some r => r.2
  | none => scheduler_start_up 1 Scheme.FCFS

/-- RR on one core: job 1 (t=0, run 5), job 2 (t=1, run 5), then the quantum
expires on core 0 at t=2. -/
def rrBefore : Option (Int × SchedState) :=
  (scheduler_new_job (scheduler_start_up 1 Scheme.RR) 1 0 5 0).bind fun r =>
    scheduler_new_job r.2 2 1 5 0

/-- The quantum-expiry call of the RR trace. -/
def rrAfter : Option (Int × SchedState) :=
  rrBefore.bind fun r => scheduler_quantum_expired r.2 0 2

/- ## The claims -/

/-- C2, counterexample to the claim as stated: insert 5 into the singleton
queue [0] under a numeric comparator.  The item lands at position 1 (the
resulting queue is [0, 5]) but `priqueue_offer` returns 0. -/
theorem C2_counterexample :
    (priqueue_offer (fun a b : Int => a - b) [0] 5).2 = [0, 5] ∧
    (priqueue_offer (fun a b : Int => a - b) [0] 5).2.indexOf 5 = 1 ∧
    (priqueue_offer (fun a b : Int => a - b) [0] 5).1 = 0 := by
  decide

/-- C2, amended: for every comparator, queue and item, the item is placed at
the position promised by the spec (`insertPos`: immediately before the first
existing element `e` with `comparator(item, e) < 0`, at the end if none
qualifies, which also covers the empty-queue and before-the-head front
cases); but the returned value equals that landing position only when the
item lands at the front — otherwise it is the landing position minus one,
i.e. the zero-based index of the element it was inserted after. -/
theorem C2_offer_placement_and_return (comp : α → α → Int) (q : List α) (x : α) :
    (priqueue_offer comp q x).2 = q.insertIdx (insertPos comp x q) x ∧
    (priqueue_offer comp q x).1 =
      (if insertPos comp x q = 0 then 0 else (insertPos comp x q : Int) - 1) := by
  have h := priqueue_offer_spec comp q x
  exact ⟨congrArg Prod.snd h, congrArg Prod.fst h⟩

/-- C3: at `index == size` both positional operations pass the bounds check
(`index > size`, not `>=`) and then dereference a null pointer — undefined
behaviour (`none`) instead of the NULL return (`some none`) that the claim
and the functions' own doc comments promise.  Shown on the empty queue at
index 0 and the singleton queue at index 1; a strictly larger index is
correctly rejected. -/
theorem C3_index_eq_size_crashes :
    priqueue_at ([] : List Int) 0 = none ∧
    priqueue_remove_at ([] : List Int) 0 = none ∧
    priqueue_at [(5 : Int)] 1 = none ∧
    priqueue_remove_at [(5 : Int)] 1 = none ∧
    priqueue_at [(5 : Int)] 2 = some none ∧
    priqueue_remove_at [(5 : Int)] 2 = some (none, [5]) ∧
    priqueue_at [(5 : Int)] (-1) = some none := by
  decide

/-- C5: the FCFS scenario on one core.  Job 1 (id 1, t=0, run 5) dispatches
to core 0; job 2 (id 2, t=1, run 3) returns -1 (core busy); finishing job 1
on core 0 at t=5 returns job id 2, and job 2 (heap key 1) then has
accumulated waiting time 5 - 1 = 4. -/
theorem C5_fcfs_scenario :
    after1.map Prod.fst = some 0 ∧
    after2.map Prod.fst = some (-1) ∧
    after3.map Prod.fst = some 2 ∧
    after3.map (fun r => (hget r.2.heap 1).map Job.t_waiting) = some (some 4) := by
  decide

/-- C6: finishing a job id that is not in the queue is not a soft miss.  On
the non-empty queue (job 1 present, id 99 absent) the C code finalizes,
frees and then re-reads the last examined queue element — undefined
behaviour, `none` — rather than returning a sentinel with no state change;
on the empty queue it reads an uninitialized pointer, also `none`. -/
theorem C6_missing_job_is_ub :
    after1.map (fun r => (hget r.2.heap 0).map Job.job_id) = some (some 1) ∧
    (after1.bind (fun r => scheduler_job_finished r.2 0 99 3)).isNone = true ∧
    (scheduler_job_finished (scheduler_start_up 1 Scheme.FCFS) 0 1 3).isNone = true := by
  decide

/-- C7, counterexample to the claim as stated: under RR (non-preemptive per
the glossary), before the quantum-expiry call job 1 is running on core 0
with 4 time units remaining; the call moves it off the core
(`j_core` becomes -1) with 3 units still remaining, i.e. before it
finishes. -/
theorem C7_counterexample :
    rrBefore.map (fun r => (hget r.2.heap 0).map fun j => (j.j_core, j.t_remaining)) =
      some (some (0, 4)) ∧
    rrAfter.map (fun r => (hget r.2.heap 0).map fun j => (j.j_core, j.t_remaining)) =
      some (some (-1, 3)) ∧
    rrAfter.map Prod.fst = some 2 := by
  decide

/-- C8: each average query returns the running sum divided by the number of
jobs ever submitted, except that it returns exactly 0 when the running sum
is exactly 0 (in particular before any job has completed, when all three
sums are still 0). -/
theorem C8_average_queries (s : SchedState) :
    scheduler_average_waiting_time s =
      (if s.t_wait = 0 then 0 else (s.t_wait : Rat) / (s.n_jobs : Rat)) ∧
    scheduler_average_turnaround_time s =
      (if s.t_turnaround = 0 then 0 else (s.t_turnaround : Rat) / (s.n_jobs : Rat)) ∧
    scheduler_average_response_time s =
      (if s.t_response = 0 then 0 else (s.t_response : Rat) / (s.n_jobs : Rat)) := by
  refine ⟨?_, ?_, ?_⟩ <;>
    simp only [scheduler_average_waiting_time, scheduler_average_turnaround_time,
      scheduler_average_response_time, ne_eq, ite_not]

/- ## The clock-advance step (claim C1) -/

theorem mem_slots_iff_filterMap {sl : List (Option Nat)} {k : Nat} :
    some k ∈ sl ↔ k ∈ sl.filterMap id := by
  rw [List.mem_filterMap]
  constructor
  · intro h; exact ⟨some k, h, rfl⟩
  · rintro ⟨a, ha, hfa⟩; rwa [show a = some k from hfa] at ha

/-- Every field of a job that `tick1` does not write is preserved; stated
for an arbitrary projection `f` invariant under `tick1`. -/
theorem tickSlots_preserves {β : Type} (f : Job → β)
    (hf : ∀ t j, f (tick1 t j) = f j) (t : Int) :
    ∀ (sl : List (Option Nat)) (h h' : Heap), tickSlots t h sl = some h' →
      ∀ k, (hget h' k).map f = (hget h k).map f := by
  intro sl
  induction sl with
  | nil => intro h h' he k; cases he; rfl
  | cons os rest ih =>
    intro h h' he k
    match os with
    | none => exact ih h h' he k
    | some k0 =>
      simp only [tickSlots] at he
      match hk0 : hget h k0, he with
      | some j0, he =>
        have step := ih _ h' he k
        rw [step, hget_hput]
        by_cases e : k = k0
        · subst e; simp [hk0, hf]
        · simp [e]

/-- A key is live after the clock advance iff it was live before. -/
theorem tickSlots_isSome (t : Int) (sl : List (Option Nat)) (h h' : Heap)
    (he : tickSlots t h sl = some h') (k : Nat) :
    (hget h' k).isSome = (hget h k).isSome := by
  have := tickSlots_preserves (fun _ => true) (fun _ _ => rfl) t sl h h' he k
  cases hh : hget h k <;> cases hh' : hget h' k <;> simp_all

/-- When the core slots hold pairwise distinct, live keys, the clock advance
succeeds and rewrites each core's job by exactly one application of the
per-job rule, leaving every other job alone. -/
theorem tickSlots_spec (t : Int) :
    ∀ (sl : List (Option Nat)) (h : Heap),
      (∀ k, some k ∈ sl → (hget h k).isSome = true) →
      (sl.filterMap id).Nodup →
      ∃ h', tickSlots t h sl = some h' ∧
        (∀ k j, some k ∈ sl → hget h k = some j → hget h' k = some (tick1 t j)) ∧
        (∀ k, ¬ some k ∈ sl → hget h' k = hget h k) := by
  intro sl
  induction sl with
  | nil =>
    intro h _ _
    exact ⟨h, rfl, fun k j hk => absurd hk (List.not_mem_nil _), fun _ _ => rfl⟩
  | cons os rest ih =>
    intro h hlive hnd
    match os with
    | none =>
      have hlive' : ∀ k, some k ∈ rest → (hget h k).isSome = true := fun k hk =>
        hlive k (List.mem_cons_of_mem _ hk)
      have hnd' : (rest.filterMap id).Nodup := by
        simpa [List.filterMap_cons] using hnd
      obtain ⟨h', he, hin, hout⟩ := ih h hlive' hnd'
      refine ⟨h', he, ?_, ?_⟩
      · intro k j hk hj
        have : some k ∈ rest := by
          rcases List.mem_cons.mp hk with h1 | h1
          · exact absurd h1 (by simp)
          · exact h1
        exact hin k j this hj
      · intro k hk
        exact hout k fun hk2 => hk (List.mem_cons_of_mem _ hk2)
    | some k0 =>
      have hk0 : (hget h k0).isSome = true := hlive k0 (List.mem_cons_self _ _)
      match hj0 : hget h k0 with
      | none => simp [hj0] at hk0
      | some j0 =>
        have hnot : k0 ∉ rest.filterMap id := by
          have := hnd
          simp only [List.filterMap_cons, id] at this
          exact (List.nodup_cons.mp this).1
        have hnotmem : ¬ some k0 ∈ rest := fun hc =>
          hnot (mem_slots_iff_filterMap.mp hc)
        have hnd' : (rest.filterMap id).Nodup := by
          have := hnd
          simp only [List.filterMap_cons, id] at this
          exact (List.nodup_cons.mp this).2
        have hlive' : ∀ k, some k ∈ rest →
            (hget (hput h k0 (tick1 t j0)) k).isSome = true := by
          intro k hk
          rw [hget_hput]
          by_cases e : k = k0
          · simp [e]
          · simpa [e] using hlive k (List.mem_cons_of_mem _ hk)
        obtain ⟨h', he, hin, hout⟩ := ih (hput h k0 (tick1 t j0)) hlive' hnd'
        refine ⟨h', ?_, ?_, ?_⟩
        · simp only [tickSlots, hj0]
          exact he
        · intro k j hk hj
          rcases List.mem_cons.mp hk with h1 | h1
          · have ek : k = k0 := by simpa using h1
            subst ek
            have ej : j0 = j := Option.some.inj (hj0.symm.trans hj)
            rw [hout k hnotmem, hget_hput, if_pos rfl, ej]
          · have ek : k ≠ k0 := fun e => hnotmem (e ▸ h1)
            have h2 : hget (hput h k0 (tick1 t j0)) k = some j := by
              rw [hget_hput, if_neg ek]; exact hj
            exact hin k j h1 h2
        · intro k hk
          have hk1 : ¬ some k ∈ rest := fun hc => hk (List.mem_cons_of_mem _ hc)
          have ek : k ≠ k0 := fun e => hk (e ▸ List.mem_cons_self _ _)
          rw [hout k hk1, hget_hput, if_neg ek]

/-- All occupied core slots hold live (non-dangling) pointers. -/
def slotsLive (s : SchedState) : Bool :=
  s.slots.all fun os =>
    match os with
    | none => true
    | some k => (hget s.heap k).isSome

theorem slotsLive_spec {s : SchedState} (h : slotsLive s = true) :
    ∀ k, some k ∈ s.slots → (hget s.heap k).isSome = true := by
  intro k hk
  have := List.all_eq_true.mp h (some k) hk
  simpa using this

/-- The job on one core at the C1 counterexample state: never started
(`t_started = -1`), last updated at time 3. -/
def c1Job : Job :=
  { t_arrival := 0, t_total := 5, t_remaining := 5, t_waiting := 0,
    t_updated := 3, t_started := -1, t_end := 0, job_id := 1,
    priority := 0, j_core := 0 }

/-- A state about to process an event at time 7 with `c1Job` on core 0. -/
def c1State : SchedState :=
  { alloc := 1, heap := hput hempty 0 c1Job, queue := [0], slots := [some 0],
    t_scheme := Scheme.FCFS, c_time := 7, n_jobs := 1,
    t_wait := 0, t_turnaround := 0, t_response := 0 }

/-- C1, counterexample to the claim as stated: at current time 7, the job
on core 0 has `t_started = -1` and `t_updated = 3 ≠ 7`, so the claim says it
is marked started at the current time 7; the code instead sets its start
timestamp to its last-update timestamp 3 (line 583:
`running_job->t_started = running_job->t_updated`). -/
theorem C1_counterexample :
    c1Job.t_started = -1 ∧ c1Job.t_updated = 3 ∧ c1State.c_time = 7 ∧
    (increment_timestep c1State).map (fun s => (hget s.heap 0).map Job.t_started) =
      some (some 3) := by
  decide

/-- C1, amended: at the start of every event, for every core holding a job
(with the slots holding distinct live pointers, as they always do between
calls): if the job's start timestamp is unset (-1) and its last-update
timestamp differs from the current time, its start timestamp is set to its
last-update timestamp (not to the current time); otherwise its remaining
time is decremented by (current time - last-update time) and its last-update
timestamp is set to the current time. -/
theorem C1_clock_advance (s : SchedState)
    (hlive : slotsLive s = true)
    (hnd : (s.slots.filterMap id).Nodup) :
    ∃ s', increment_timestep s = some s' ∧
      ∀ k j, some k ∈ s.slots → hget s.heap k = some j →
        hget s'.heap k =
          some (if j.t_started = -1 ∧ j.t_updated ≠ s.c_time then
                  { j with t_started := j.t_updated }
                else
                  { j with
                    t_remaining := j.t_remaining - (s.c_time - j.t_updated),
                    t_updated := s.c_time }) := by
  obtain ⟨h', he, hin, _⟩ :=
    tickSlots_spec s.c_time s.slots s.heap (slotsLive_spec hlive) hnd
  refine ⟨{ s with heap := h' }, ?_, ?_⟩
  · simp [increment_timestep, he]
  · intro k j hk hj
    have := hin k j hk hj
    rwa [tick1] at this

/-- Witness for C1's amended theorem at the concrete state `c1State`. -/
theorem C1_clock_advance_witness :
    ∃ s', increment_timestep c1State = some s' ∧
      ∀ k j, some k ∈ c1State.slots → hget c1State.heap k = some j →
        hget s'.heap k =
          some (if j.t_started = -1 ∧ j.t_updated ≠ c1State.c_time then
                  { j with t_started := j.t_updated }
                else
                  { j with
                    t_remaining := j.t_remaining - (c1State.c_time - j.t_updated),
                    t_updated := c1State.c_time }) :=
  C1_clock_advance c1State (by decide) (by decide)

/- ## Inversion lemmas for the event functions -/

theorem increment_timestep_inv {s s' : SchedState}
    (h : increment_timestep s = some s') :
    ∃ h1, tickSlots s.c_time s.heap s.slots = some h1 ∧ s' = { s with heap := h1 } := by
  unfold increment_timestep at h
  match ht : tickSlots s.c_time s.heap s.slots with
  | some h1 =>
    rw [ht] at h
    exact ⟨h1, rfl, (Option.some.inj h).symm⟩
  | none => rw [ht] at h; cases h

/-- Everything the post-clock-advance body of `scheduler_new_job` can do,
by branch. -/
theorem newJobCore_inv {s : SchedState} {job : Job} {r : Int} {s' : SchedState}
    (h : newJobCore s job = some (r, s')) :
    (∃ i : Nat, freeCore s.slots = some i ∧ r = (i : Int) ∧
      s' = newJobFreeState s job i) ∨
    (∃ cjobs, freeCore s.slots = none ∧ slotJobs s.heap s.slots = some cjobs ∧
      evictionScan s.t_scheme cjobs job.t_remaining job.priority = some (-1) ∧
      r = -1 ∧ s' = newJobEnqueueState s job) ∨
    (∃ cjobs ctv kOld old, freeCore s.slots = none ∧
      slotJobs s.heap s.slots = some cjobs ∧
      evictionScan s.t_scheme cjobs job.t_remaining job.priority = some ctv ∧
      ctv ≠ -1 ∧ s.slots.get? ctv.toNat = some (some kOld) ∧
      hget s.heap kOld = some old ∧ r = ctv ∧
      s' = newJobPreemptState s job ctv kOld old) := by
  unfold newJobCore at h
  rcases hfc : freeCore s.slots with _ | i
  · simp only [hfc] at h
    rcases hsj : slotJobs s.heap s.slots with _ | cjobs
    · simp only [hsj] at h
      exact Option.noConfusion h
    · simp only [hsj] at h
      rcases hscan : evictionScan s.t_scheme cjobs job.t_remaining job.priority
        with _ | ctv
      · simp only [hscan] at h
        exact Option.noConfusion h
      · simp only [hscan] at h
        by_cases hctv : ctv = -1
        · rw [if_pos hctv] at h
          simp only [Option.some.injEq, Prod.mk.injEq] at h
          exact Or.inr (Or.inl ⟨cjobs, rfl, rfl, hctv ▸ hscan, h.1.symm, h.2.symm⟩)
        · rw [if_neg hctv] at h
          rcases hsl : s.slots.get? ctv.toNat with _ | os
          · simp only [hsl] at h
            exact Option.noConfusion h
          · rcases os with _ | kOld
            · simp only [hsl] at h
              exact Option.noConfusion h
            · simp only [hsl] at h
              rcases hok : hget s.heap kOld with _ | old
              · simp only [hok] at h
                exact Option.noConfusion h
              · simp only [hok, Option.some.injEq, Prod.mk.injEq] at h
                exact Or.inr (Or.inr ⟨cjobs, ctv, kOld, old, rfl, rfl, hscan, hctv,
                  hsl, hok, h.1.symm, h.2.symm⟩)
  · simp only [hfc, Option.some.injEq, Prod.mk.injEq] at h
    exact Or.inl ⟨i, rfl, h.1.symm, h.2.symm⟩

/-- Everything the post-clock-advance body of `scheduler_job_finished` can
do, by branch. -/
theorem finishCore_inv {s : SchedState} {core_id job_number r : Int}
    {s' : SchedState} (h : finishCore s core_id job_number = some (r, s')) :
    ∃ i k fin, findJobIdx s.heap job_number s.queue 0 = some (some (i, k)) ∧
      hget s.heap k = some fin ∧ 0 ≤ core_id ∧ core_id.toNat < s.slots.length ∧
      (((s.queue.eraseIdx i).length = 0 ∧ r = -1 ∧
          s' = finishRemoveState s i k fin core_id.toNat) ∨
        ((s.queue.eraseIdx i).length ≠ 0 ∧
          dispatchNext (finishRemoveState s i k fin core_id.toNat) core_id.toNat =
            some (r, s'))) := by
  unfold finishCore at h
  rcases hf : findJobIdx s.heap job_number s.queue 0 with _ | of
  · simp only [hf] at h
    exact Option.noConfusion h
  · rcases of with _ | ik
    · simp only [hf] at h
      exact Option.noConfusion h
    · rcases ik with ⟨i, k⟩
      simp only [hf] at h
      rcases hfin : hget s.heap k with _ | fin
      · simp only [hfin] at h
        exact Option.noConfusion h
      · simp only [hfin] at h
        by_cases hc : 0 ≤ core_id ∧ core_id.toNat < s.slots.length
        · rw [if_pos hc] at h
          refine ⟨i, k, fin, rfl, hfin, hc.1, hc.2, ?_⟩
          by_cases hz : (s.queue.eraseIdx i).length = 0
          · rw [if_pos hz] at h
            simp only [Option.some.injEq, Prod.mk.injEq] at h
            exact Or.inl ⟨hz, h.1.symm, h.2.symm⟩
          · rw [if_neg hz] at h
            exact Or.inr ⟨hz, h⟩
        · rw [if_neg hc] at h; cases h

/-- Everything `dispatchNext` can do. -/
theorem dispatchNext_inv {s : SchedState} {cid : Nat} {r : Int} {s' : SchedState}
    (h : dispatchNext s cid = some (r, s')) :
    (findUnassigned s.heap s.queue = some none ∧ r = -1 ∧ s' = s) ∨
    (∃ k j, findUnassigned s.heap s.queue = some (some k) ∧
      hget s.heap k = some j ∧ r = (dispatchOn s.c_time cid j).job_id ∧
      s' = dispatchState s cid k j) := by
  unfold dispatchNext at h
  rcases hu : findUnassigned s.heap s.queue with _ | ok
  · simp only [hu] at h
    exact Option.noConfusion h
  · rcases ok with _ | k
    · simp only [hu, Option.some.injEq, Prod.mk.injEq] at h
      exact Or.inl ⟨rfl, h.1.symm, h.2.symm⟩
    · simp only [hu] at h
      rcases hj : hget s.heap k with _ | j
      · simp only [hj] at h
        exact Option.noConfusion h
      · simp only [hj, Option.some.injEq, Prod.mk.injEq] at h
        exact Or.inr ⟨k, j, rfl, hj, h.1.symm, h.2.symm⟩

/-- Everything the post-clock-advance body of `scheduler_quantum_expired`
can do, by branch. -/
theorem quantumCore_inv {s : SchedState} {core_id r : Int} {s' : SchedState}
    (h : quantumCore s core_id = some (r, s')) :
    (s.queue.length = 0 ∧ r = -1 ∧ s' = s) ∨
    (s.queue.length ≠ 0 ∧ 0 ≤ core_id ∧ core_id.toNat < s.slots.length ∧
      ∃ kRun run, s.slots.get? core_id.toNat = some (some kRun) ∧
        hget s.heap kRun = some run ∧
        ((findJobIdx s.heap run.job_id s.queue 0 = some none ∧
            dispatchNext s core_id.toNat = some (r, s')) ∨
          (∃ i k act, findJobIdx s.heap run.job_id s.queue 0 = some (some (i, k)) ∧
            hget s.heap k = some act ∧
            ((act.t_remaining ≠ 0 ∧
                dispatchNext (quantumRequeueState s i k act) core_id.toNat =
                  some (r, s')) ∨
              (act.t_remaining = 0 ∧
                dispatchNext (quantumFinishState s i k act core_id.toNat)
                  core_id.toNat = some (r, s')))))) := by
  unfold quantumCore at h
  by_cases hq : s.queue.length = 0
  · rw [if_pos hq] at h
    simp only [Option.some.injEq, Prod.mk.injEq] at h
    exact Or.inl ⟨hq, h.1.symm, h.2.symm⟩
  · rw [if_neg hq] at h
    by_cases hc : 0 ≤ core_id ∧ core_id.toNat < s.slots.length
    · rw [if_pos hc] at h
      refine Or.inr ⟨hq, hc.1, hc.2, ?_⟩
      rcases hsl : s.slots.get? core_id.toNat with _ | os
      · simp only [hsl] at h
        exact Option.noConfusion h
      · rcases os with _ | kRun
        · simp only [hsl] at h
          exact Option.noConfusion h
        · simp only [hsl] at h
          rcases hrun : hget s.heap kRun with _ | run
          · simp only [hrun] at h
            exact Option.noConfusion h
          · simp only [hrun] at h
            refine ⟨kRun, run, rfl, hrun, ?_⟩
            rcases hf : findJobIdx s.heap run.job_id s.queue 0 with _ | of
            · simp only [hf] at h
              exact Option.noConfusion h
            · rcases of with _ | ik
              · simp only [hf] at h
                exact Or.inl ⟨rfl, h⟩
              · rcases ik with ⟨i, k⟩
                simp only [hf] at h
                rcases hact : hget s.heap k with _ | act
                · simp only [hact] at h
                  exact Option.noConfusion h
                · simp only [hact] at h
                  refine Or.inr ⟨i, k, act, rfl, hact, ?_⟩
                  by_cases hrem : act.t_remaining ≠ 0
                  · rw [if_pos hrem] at h
                    exact Or.inl ⟨hrem, h⟩
                  · rw [if_neg hrem] at h
                    exact Or.inr ⟨by omega, h⟩
    · rw [if_neg hc] at h; cases h

/-- A successful job search points into the queue: the returned position is
the offset argument plus a valid index at which the returned pointer sits. -/
theorem findJobIdx_pos (h : Heap) (id : Int) :
    ∀ (q : List Nat) (n i k : Nat),
      findJobIdx h id q n = some (some (i, k)) →
      n ≤ i ∧ i - n < q.length ∧ q.get? (i - n) = some k := by
  intro q
  induction q with
  | nil => intro n i k hh; simp [findJobIdx] at hh
  | cons k0 rest ih =>
    intro n i k hh
    unfold findJobIdx at hh
    rcases hj0 : hget h k0 with _ | j0
    · simp only [hj0] at hh
      exact Option.noConfusion hh
    · simp only [hj0] at hh
      by_cases hid : j0.job_id = id
      · rw [if_pos hid] at hh
        simp only [Option.some.injEq, Prod.mk.injEq] at hh
        obtain ⟨hi, hk⟩ := hh
        refine ⟨hi ▸ Nat.le_refl n, ?_, ?_⟩
        · rw [← hi, Nat.sub_self]; simp
        · rw [← hi, Nat.sub_self, ← hk]; rfl
      · rw [if_neg hid] at hh
        obtain ⟨h1, h2, h3⟩ := ih (n + 1) i k hh
        refine ⟨by omega, by simp; omega, ?_⟩
        have : i - n = (i - (n + 1)) + 1 := by omega
        rw [this]
        simpa using h3

/-- C9: a successful `scheduler_new_job` grows the queue by exactly one, and
a successful `scheduler_job_finished` (which requires the finished job id to
be present in the queue) shrinks it by exactly one. -/
theorem C9_queue_size_change (s0 : SchedState)
    (job_number time running_time priority core_id : Int) :
    (scheduler_new_job s0 job_number time running_time priority).map
        (fun p => p.2.queue.length) =
      (scheduler_new_job s0 job_number time running_time priority).map
        (fun _ => s0.queue.length + 1) ∧
    (scheduler_job_finished s0 core_id job_number time).map
        (fun p => p.2.queue.length + 1) =
      (scheduler_job_finished s0 core_id job_number time).map
        (fun _ => s0.queue.length) := by
  constructor
  · match hr : scheduler_new_job s0 job_number time running_time priority with
    | none => rfl
    | some (r, s') =>
      simp only [Option.map_some']
      refine congrArg some ?_
      obtain ⟨s, hinc, hcore⟩ := Option.bind_eq_some.mp hr
      obtain ⟨h1, _, hs⟩ := increment_timestep_inv hinc
      have hq : s.queue = s0.queue := by rw [hs]
      rcases newJobCore_inv hcore with ⟨i, _, _, hs'⟩ | ⟨cjobs, _, _, _, _, hs'⟩ |
        ⟨cjobs, ctv, kOld, old, _, _, _, _, _, _, _, hs'⟩ <;>
        subst hs' <;>
        simp [newJobFreeState, newJobEnqueueState, newJobPreemptState,
          priqueue_offer_length, hq]
  · match hr : scheduler_job_finished s0 core_id job_number time with
    | none => rfl
    | some (r, s') =>
      simp only [Option.map_some']
      refine congrArg some ?_
      obtain ⟨s, hinc, hcore⟩ := Option.bind_eq_some.mp hr
      obtain ⟨h1, _, hs⟩ := increment_timestep_inv hinc
      have hq : s.queue = s0.queue := by rw [hs]
      obtain ⟨i, k, fin, hf, hfin, _, _, hbr⟩ := finishCore_inv hcore
      have hlt : i < s.queue.length := by
        have := findJobIdx_pos s.heap job_number s.queue 0 i k hf
        simpa using this.2.1
      have herase : (s.queue.eraseIdx i).length + 1 = s.queue.length :=
        List.length_eraseIdx_add_one hlt
      rcases hbr with ⟨_, _, hs'⟩ | ⟨_, hdisp⟩
      · subst hs'
        simp only [finishRemoveState]
        rw [← hq]
        exact herase
      · rcases dispatchNext_inv hdisp with ⟨_, _, hs'⟩ | ⟨k2, j2, _, _, _, hs'⟩ <;>
          subst hs' <;>
          simp [dispatchState, finishRemoveState, ← hq, herase]

/-- A successful unassigned-job search returns a queued, live pointer whose
job has no core. -/
theorem findUnassigned_core (h : Heap) :
    ∀ (q : List Nat) (k : Nat), findUnassigned h q = some (some k) →
      ∃ j, hget h k = some j ∧ j.j_core = -1 ∧ k ∈ q := by
  intro q
  induction q with
  | nil => intro k hh; simp [findUnassigned] at hh
  | cons k0 rest ih =>
    intro k hh
    unfold findUnassigned at hh
    rcases hj0 : hget h k0 with _ | j0
    · simp only [hj0] at hh
      exact Option.noConfusion hh
    · simp only [hj0] at hh
      by_cases hc : j0.j_core = -1
      · rw [if_pos hc] at hh
        simp only [Option.some.injEq] at hh
        subst hh
        exact ⟨j0, hj0, hc, List.mem_cons_self _ _⟩
      · rw [if_neg hc] at hh
        obtain ⟨j2, hj2, hc2, hm⟩ := ih k hh
        exact ⟨j2, hj2, hc2, List.mem_cons_of_mem _ hm⟩

/-- Under every scheme other than PSJF and PPRI the eviction scan is skipped
and `coretochange` stays `-1`. -/
theorem evictionScan_nonpreemptive (sch : Scheme) (cjobs : List Job) (rt pr : Int)
    (h1 : sch ≠ Scheme.PSJF) (h2 : sch ≠ Scheme.PPRI) :
    evictionScan sch cjobs rt pr = some (-1) := by
  cases sch <;> first | rfl | exact absurd rfl h1 | exact absurd rfl h2

/-- C7, amended: under the non-preemptive disciplines among which
quantum-expiry events do not occur (FCFS, SJF, PRI — and for arrivals also
RR), no event moves a running job off its core: `scheduler_new_job` under
any scheme other than PSJF and PPRI, and `scheduler_job_finished` under
every scheme, preserve the core assignment of every surviving job that had
one.  (Under RR the claim fails: `scheduler_quantum_expired` moves the
unfinished running job off its core, see the counterexample.) -/
theorem C7_nonpreemptive_keeps_core (s0 : SchedState) :
    (s0.t_scheme ≠ Scheme.PSJF → s0.t_scheme ≠ Scheme.PPRI →
      hget s0.heap s0.alloc = none →
      ∀ job_number time running_time priority k j j',
        hget s0.heap k = some j →
        (scheduler_new_job s0 job_number time running_time priority).map
            (fun p => hget p.2.heap k) = some (some j') →
        j'.j_core = j.j_core) ∧
    (∀ core_id job_number time k j j',
      hget s0.heap k = some j → j.j_core ≠ -1 →
      (scheduler_job_finished s0 core_id job_number time).map
          (fun p => hget p.2.heap k) = some (some j') →
      j'.j_core = j.j_core) := by
  constructor
  · intro hns hnp hfresh job_number time running_time priority k j j' hk hmap
    match hres : scheduler_new_job s0 job_number time running_time priority with
    | none => rw [hres] at hmap; cases hmap
    | some (r, s') =>
      rw [hres] at hmap
      simp only [Option.map_some', Option.some.injEq] at hmap
      obtain ⟨s, hinc, hcore⟩ := Option.bind_eq_some.mp hres
      obtain ⟨h1, htick, hs⟩ := increment_timestep_inv hinc
      have hsch : s.t_scheme = s0.t_scheme := by rw [hs]
      have halloc : s.alloc = s0.alloc := by rw [hs]
      have hsheap : s.heap = h1 := by rw [hs]
      have hjcore : ∀ q, (hget h1 q).map Job.j_core = (hget s0.heap q).map Job.j_core :=
        tickSlots_preserves Job.j_core
          (fun t x => by unfold tick1; by_cases hc : x.t_started = -1 ∧ x.t_updated ≠ t <;>
            simp [hc]) time s0.slots s0.heap h1 htick
      have hfresh1 : hget h1 s0.alloc = none := by
        have := tickSlots_isSome time s0.slots s0.heap h1 htick s0.alloc
        rw [hfresh] at this
        cases hx : hget h1 s0.alloc
        · rfl
        · rw [hx] at this; simp at this
      have hk1 : ∃ j1, hget h1 k = some j1 ∧ j1.j_core = j.j_core := by
        have := hjcore k
        rw [hk] at this
        cases hx : hget h1 k
        · rw [hx] at this; simp at this
        · rw [hx] at this
          simp only [Option.map_some', Option.some.injEq] at this
          exact ⟨_, rfl, this⟩
      obtain ⟨j1, hj1, hj1core⟩ := hk1
      have hkne : k ≠ s0.alloc := by
        intro e; rw [e, hfresh1] at hj1; cases hj1
      rcases newJobCore_inv hcore with ⟨i, _, _, hs'⟩ | ⟨cjobs, _, _, _, _, hs'⟩ |
        ⟨cjobs, ctv, kOld, old, _, _, hscan, hctv, _, _, _, hs'⟩
      · subst hs'
        rw [show (newJobFreeState s _ i).heap =
          hput s.heap s.alloc (runJob s.c_time
            (newJobMalloc job_number time running_time priority) (i : Int))
          from rfl, hget_hput, halloc, if_neg hkne, hsheap, hj1] at hmap
        cases hmap
        exact hj1core
      · subst hs'
        rw [show (newJobEnqueueState s _).heap =
          hput s.heap s.alloc (newJobMalloc job_number time running_time priority)
          from rfl, hget_hput, halloc, if_neg hkne, hsheap, hj1] at hmap
        cases hmap
        exact hj1core
      · rw [hsch] at hscan
        rw [evictionScan_nonpreemptive s0.t_scheme cjobs
          (newJobMalloc job_number time running_time priority).t_remaining
          (newJobMalloc job_number time running_time priority).priority hns hnp]
          at hscan
        exact absurd (Option.some.inj hscan).symm hctv
  · intro core_id job_number time k j j' hk hkcore hmap
    match hres : scheduler_job_finished s0 core_id job_number time with
    | none => rw [hres] at hmap; cases hmap
    | some (r, s') =>
      rw [hres] at hmap
      simp only [Option.map_some', Option.some.injEq] at hmap
      obtain ⟨s, hinc, hcore⟩ := Option.bind_eq_some.mp hres
      obtain ⟨h1, htick, hs⟩ := increment_timestep_inv hinc
      have hsheap : s.heap = h1 := by rw [hs]
      have hjcore : ∀ q, (hget h1 q).map Job.j_core = (hget s0.heap q).map Job.j_core :=
        tickSlots_preserves Job.j_core
          (fun t x => by unfold tick1; by_cases hc : x.t_started = -1 ∧ x.t_updated ≠ t <;>
            simp [hc]) time s0.slots s0.heap h1 htick
      have hk1 : ∃ j1, hget h1 k = some j1 ∧ j1.j_core = j.j_core := by
        have := hjcore k
        rw [hk] at this
        cases hx : hget h1 k
        · rw [hx] at this; simp at this
        · rw [hx] at this
          simp only [Option.map_some', Option.some.injEq] at this
          exact ⟨_, rfl, this⟩
      obtain ⟨j1, hj1, hj1core⟩ := hk1
      obtain ⟨i, kFin, fin, hf, hfin, _, _, hbr⟩ := finishCore_inv hcore
      have hkne : k ≠ kFin → hget (hdel s.heap kFin) k = some j1 := by
        intro hne
        rw [hget_hdel, if_neg hne, hsheap]
        exact hj1
      rcases hbr with ⟨_, _, hs'⟩ | ⟨_, hdisp⟩
      · subst hs'
        by_cases hne : k = kFin
        · rw [show (finishRemoveState s i kFin fin core_id.toNat).heap =
            hdel s.heap kFin from rfl, hne, hget_hdel, if_pos rfl] at hmap
          cases hmap
        · rw [show (finishRemoveState s i kFin fin core_id.toNat).heap =
            hdel s.heap kFin from rfl, hkne hne] at hmap
          cases hmap
          exact hj1core
      · rcases dispatchNext_inv hdisp with ⟨_, _, hs'⟩ | ⟨k2, j2, _, hj2, _, hs'⟩
        · subst hs'
          by_cases hne : k = kFin
          · rw [show (finishRemoveState s i kFin fin core_id.toNat).heap =
              hdel s.heap kFin from rfl, hne, hget_hdel, if_pos rfl] at hmap
            cases hmap
          · rw [show (finishRemoveState s i kFin fin core_id.toNat).heap =
              hdel s.heap kFin from rfl, hkne hne] at hmap
            cases hmap
            exact hj1core
        · subst hs'
          have hk2 : hget (hdel s.heap kFin) k2 = some j2 := hj2
          have hk2core : ∃ jx, hget (hdel s.heap kFin) k2 = some jx ∧ jx.j_core = -1 := by
            obtain ⟨jx, hjx, hjxc, _⟩ := findUnassigned_core _ _ _
              (show findUnassigned (finishRemoveState s i kFin fin core_id.toNat).heap
                (finishRemoveState s i kFin fin core_id.toNat).queue =
                some (some k2) by assumption)
            exact ⟨jx, hjx, hjxc⟩
          by_cases hek : k = k2
          · exfalso
            subst hek
            have hkkfin : k ≠ kFin := by
              intro e
              rw [e, hget_hdel, if_pos rfl] at hk2
              cases hk2
            have : j2 = j1 := by
              rw [hkne hkkfin] at hk2
              exact (Option.some.inj hk2).symm
            obtain ⟨jx, hjx, hjxc⟩ := hk2core
            rw [hk2] at hjx
            cases hjx
            rw [this] at hjxc
            rw [hj1core] at hjxc
            exact hkcore hjxc
          · rw [show (dispatchState (finishRemoveState s i kFin fin core_id.toNat)
              core_id.toNat k2 j2).heap =
              hput (hdel s.heap kFin) k2
                (dispatchOn (finishRemoveState s i kFin fin core_id.toNat).c_time
                  core_id.toNat j2) from rfl, hget_hput, if_neg hek] at hmap
            by_cases hne : k = kFin
            · rw [hne, hget_hdel, if_pos rfl] at hmap
              cases hmap
            · rw [hkne hne] at hmap
              cases hmap
              exact hj1core

/-- Job 1 of the FCFS trace as it is after its dispatch at t=0. -/
def c7JobBefore : Job :=
  { t_arrival := 0, t_total := 5, t_remaining := 5, t_waiting := 0,
    t_updated := 0, t_started := 0, t_end := 0, job_id := 1,
    priority := 0, j_core := 0 }

/-- Job 1 of the FCFS trace as it is after job 2 arrives at t=1. -/
def c7JobAfter : Job :=
  { t_arrival := 0, t_total := 5, t_remaining := 4, t_waiting := 0,
    t_updated := 1, t_started := 0, t_end := 0, job_id := 1,
    priority := 0, j_core := 0 }

/-- Witness for C7's amended theorem on the concrete FCFS trace: job 2's
arrival leaves job 1 on core 0. -/
theorem C7_nonpreemptive_keeps_core_witness : c7JobAfter.j_core = c7JobBefore.j_core :=
  (C7_nonpreemptive_keeps_core after1State).1 (by decide) (by decide) (by decide)
    2 1 3 0 0 c7JobBefore c7JobAfter (by decide) (by decide)

/- ## The PPRI eviction scan (claim C4) -/

theorem tick1_priority (t : Int) (j : Job) : (tick1 t j).priority = j.priority := by
  unfold tick1; by_cases hc : j.t_started = -1 ∧ j.t_updated ≠ t <;> simp [hc]

theorem tick1_arrival (t : Int) (j : Job) : (tick1 t j).t_arrival = j.t_arrival := by
  unfold tick1; by_cases hc : j.t_started = -1 ∧ j.t_updated ≠ t <;> simp [hc]

theorem tick1_started (t : Int) (j : Job) (h : j.t_started ≠ -1) :
    (tick1 t j).t_started = j.t_started := by
  unfold tick1
  have : ¬(j.t_started = -1 ∧ j.t_updated ≠ t) := fun hc => h hc.1
  simp [this]

/-- What a successful `slotJobs` read says about each core slot. -/
theorem slotJobs_spec (h : Heap) :
    ∀ (sl : List (Option Nat)) (cj : List Job), slotJobs h sl = some cj →
      cj.length = sl.length ∧
      (∀ k, some k ∈ sl → (hget h k).isSome = true) ∧
      ∀ m, m < sl.length →
        ∃ k j, sl.get? m = some (some k) ∧ hget h k = some j ∧ cj.get? m = some j := by
  intro sl
  induction sl with
  | nil =>
    intro cj hh
    cases hh
    exact ⟨rfl, fun k hk => absurd hk (List.not_mem_nil _), fun m hm => by simp at hm⟩
  | cons os rest ih =>
    intro cj hh
    match os with
    | none => simp [slotJobs] at hh
    | some k0 =>
      unfold slotJobs at hh
      rcases hj0 : hget h k0 with _ | j0
      · simp only [hj0] at hh
        exact Option.noConfusion hh
      · simp only [hj0] at hh
        rcases hrest : slotJobs h rest with _ | cj0
        · rw [hrest] at hh; cases hh
        · rw [hrest] at hh
          simp only [Option.map_some', Option.some.injEq] at hh
          subst hh
          obtain ⟨hl, hlive, hm⟩ := ih cj0 hrest
          refine ⟨by simp [hl], ?_, ?_⟩
          · intro k hk
            rcases List.mem_cons.mp hk with h1 | h1
            · have : k = k0 := by simpa using h1
              rw [this, hj0]; rfl
            · exact hlive k h1
          · intro m hmlt
            match m with
            | 0 => exact ⟨k0, j0, rfl, hj0, rfl⟩
            | m + 1 =>
              have : m < rest.length := by simpa using hmlt
              obtain ⟨k, j, e1, e2, e3⟩ := hm m this
              exact ⟨k, j, e1, e2, e3⟩

/-- The clock advance maps the list of core jobs pointwise through the
per-job rule. -/
theorem slotJobs_of_tick (t : Int) :
    ∀ (sl : List (Option Nat)) (h h' : Heap),
      (∀ k j, some k ∈ sl → hget h k = some j → hget h' k = some (tick1 t j)) →
      ∀ cj, slotJobs h sl = some cj → slotJobs h' sl = some (cj.map (tick1 t)) := by
  intro sl
  induction sl with
  | nil => intro h h' _ cj hh; cases hh; rfl
  | cons os rest ih =>
    intro h h' hin cj hh
    match os with
    | none => simp [slotJobs] at hh
    | some k0 =>
      unfold slotJobs at hh
      rcases hj0 : hget h k0 with _ | j0
      · simp only [hj0] at hh
        exact Option.noConfusion hh
      · simp only [hj0] at hh
        rcases hrest : slotJobs h rest with _ | cj0
        · rw [hrest] at hh; cases hh
        · rw [hrest] at hh
          simp only [Option.map_some', Option.some.injEq] at hh
          subst hh
          have h1 : hget h' k0 = some (tick1 t j0) :=
            hin k0 j0 (List.mem_cons_self _ _) hj0
          have h2 : slotJobs h' rest = some (cj0.map (tick1 t)) :=
            ih h h' (fun k j hk hj => hin k j (List.mem_cons_of_mem _ hk) hj) cj0 hrest
          unfold slotJobs
          rw [h1, h2]
          rfl

/-- The loop invariant of the PPRI scan (lines 161-181), carried over the
unprocessed suffix: the accumulator is either still the `-1` sentinel with
no qualifying core seen, or it points at a processed core whose job
maximises (priority, then arrival time) among the qualifying processed
cores; the final result satisfies the same property over all cores. -/
theorem ppriScan_go (all : List Job) (p : Int) (hp : -1 ≤ p) :
    ∀ (rest : List Job) (n : Nat) (ct cp : Int),
      all.drop n = rest →
      ((ct = -1 ∧ cp = -1 ∧
        ∀ m jx, m < n → all.get? m = some jx → ¬ p < jx.priority) ∨
       (∃ c : Nat, ct = (c : Int) ∧ c < n ∧
        ∃ jc, all.get? c = some jc ∧ cp = jc.priority ∧ p < jc.priority ∧
        ∀ m jx, m < n → all.get? m = some jx → p < jx.priority →
          jx.priority ≤ jc.priority ∧
          (jx.priority = jc.priority → jx.t_arrival ≤ jc.t_arrival))) →
      ∃ ct2, ppriScan all p rest n ct cp = some ct2 ∧
        ((ct2 = -1 ∧ ∀ m jx, all.get? m = some jx → ¬ p < jx.priority) ∨
         (∃ c : Nat, ct2 = (c : Int) ∧ c < all.length ∧
          ∃ jc, all.get? c = some jc ∧ p < jc.priority ∧
          ∀ m jx, all.get? m = some jx → p < jx.priority →
            jx.priority ≤ jc.priority ∧
            (jx.priority = jc.priority → jx.t_arrival ≤ jc.t_arrival))) := by
  intro rest
  induction rest with
  | nil =>
    intro n ct cp hdrop hinv
    have hlen : all.length ≤ n := by
      rwa [List.drop_eq_nil_iff_le] at hdrop
    refine ⟨ct, rfl, ?_⟩
    rcases hinv with ⟨h1, _, h3⟩ | ⟨c, h1, h2, jc, h3, _, h5, h6⟩
    · refine Or.inl ⟨h1, fun m jx hm => ?_⟩
      have : m < all.length := by
        by_contra hc
        rw [List.get?_eq_none.mpr (by omega)] at hm
        cases hm
      exact h3 m jx (by omega) hm
    · refine Or.inr ⟨c, h1, ?_, jc, h3, h5, fun m jx hm hq => ?_⟩
      · by_contra hc
        rw [List.get?_eq_none.mpr (by omega)] at h3
        cases h3
      · have : m < all.length := by
          by_contra hc
          rw [List.get?_eq_none.mpr (by omega)] at hm
          cases hm
        exact h6 m jx (by omega) hm hq
  | cons j rest ih =>
    intro n ct cp hdrop hinv
    have hgetn : all.get? n = some j := by
      have := List.get?_drop all n 0
      rw [hdrop] at this
      simpa using this.symm
    have hdrop' : all.drop (n + 1) = rest := by
      have h1 : all.drop (n + 1) = (all.drop n).drop 1 := by
        rw [List.drop_drop]
      rw [h1, hdrop]
      rfl
    unfold ppriScan
    by_cases hq : j.priority > p
    · rw [if_pos hq]
      by_cases hgt : j.priority > cp
      · rw [if_pos hgt]
        refine ih (n + 1) (n : Int) j.priority hdrop' (Or.inr ⟨n, rfl, by omega, j,
          hgetn, rfl, hq, ?_⟩)
        intro m jx hm hx hqx
        rcases Nat.lt_succ_iff_lt_or_eq.mp hm with hm' | hm'
        · rcases hinv with ⟨_, h2, h3⟩ | ⟨c, _, _, jc, _, h5, _, h7⟩
          · exact absurd hqx (h3 m jx hm' hx)
          · have := h7 m jx hm' hx hqx
            rw [← h5] at this
            exact ⟨by omega, fun he => by omega⟩
        · subst hm'
          rw [hgetn] at hx
          cases hx
          exact ⟨le_refl _, fun _ => le_refl _⟩
      · rw [if_neg hgt]
        by_cases heq : j.priority = cp
        · rw [if_pos heq]
          rcases hinv with ⟨_, h2, _⟩ | ⟨c, h1, h2, jc, h3, h4, h5, h6⟩
          · exfalso; omega
          · have hctnn : ¬ ct < 0 := by omega
            rw [if_neg hctnn]
            have hcnat : ct.toNat = c := by omega
            simp only [hcnat, h3]
            by_cases harr : j.t_arrival > jc.t_arrival
            · rw [if_pos harr]
              refine ih (n + 1) (n : Int) cp hdrop' (Or.inr ⟨n, rfl, by omega, j,
                hgetn, by omega, hq, ?_⟩)
              intro m jx hm hx hqx
              rcases Nat.lt_succ_iff_lt_or_eq.mp hm with hm' | hm'
              · have := h6 m jx hm' hx hqx
                rw [← h4] at this
                refine ⟨by omega, fun he => ?_⟩
                have := this.2 (by omega)
                omega
              · subst hm'
                rw [hgetn] at hx
                cases hx
                exact ⟨by omega, fun _ => le_refl _⟩
            · rw [if_neg harr]
              refine ih (n + 1) ct cp hdrop' (Or.inr ⟨c, h1, by omega, jc, h3, h4,
                h5, ?_⟩)
              intro m jx hm hx hqx
              rcases Nat.lt_succ_iff_lt_or_eq.mp hm with hm' | hm'
              · exact h6 m jx hm' hx hqx
              · subst hm'
                rw [hgetn] at hx
                cases hx
                exact ⟨by omega, fun _ => by omega⟩
        · rw [if_neg heq]
          rcases hinv with ⟨_, h2, _⟩ | ⟨c, h1, h2, jc, h3, h4, h5, h6⟩
          · exfalso; omega
          · refine ih (n + 1) ct cp hdrop' (Or.inr ⟨c, h1, by omega, jc, h3, h4,
              h5, ?_⟩)
            intro m jx hm hx hqx
            rcases Nat.lt_succ_iff_lt_or_eq.mp hm with hm' | hm'
            · exact h6 m jx hm' hx hqx
            · subst hm'
              rw [hgetn] at hx
              cases hx
              exact ⟨by omega, fun he => by omega⟩
    · rw [if_neg hq]
      rcases hinv with ⟨h1, h2, h3⟩ | ⟨c, h1, h2, jc, h3, h4, h5, h6⟩
      · refine ih (n + 1) ct cp hdrop' (Or.inl ⟨h1, h2, ?_⟩)
        intro m jx hm hx
        rcases Nat.lt_succ_iff_lt_or_eq.mp hm with hm' | hm'
        · exact h3 m jx hm' hx
        · subst hm'
          rw [hgetn] at hx
          cases hx
          exact hq
      · refine ih (n + 1) ct cp hdrop' (Or.inr ⟨c, h1, by omega, jc, h3, h4, h5, ?_⟩)
        intro m jx hm hx hqx
        rcases Nat.lt_succ_iff_lt_or_eq.mp hm with hm' | hm'
        · exact h6 m jx hm' hx hqx
        · subst hm'
          rw [hgetn] at hx
          cases hx
          exact absurd hqx hq

/-- C4: under PPRI with every core busy and live (priorities nonnegative,
distinct slot pointers, fresh allocator — all invariants of real runs), with
at least one running job of priority number strictly greater than the
arriving job's: the evicted core `c` holds a job maximising first the
priority number among such jobs and then the arrival time among ties; the
arriving job is installed on `c` and enqueued, `c` is returned, the evicted
job's core assignment becomes unset, and its start timestamp is reset to
unset exactly when it equals the current time. -/
theorem C4_ppri_eviction (s0 : SchedState)
    (job_number time running_time priority : Int) (cjobs0 : List Job)
    (hsch : s0.t_scheme = Scheme.PPRI)
    (hpr : 0 ≤ priority)
    (hcj : slotJobs s0.heap s0.slots = some cjobs0)
    (hstart : ∀ j ∈ cjobs0, j.t_started ≠ -1)
    (hnd : (s0.slots.filterMap id).Nodup)
    (hfree : freeCore s0.slots = none)
    (hfresh : hget s0.heap s0.alloc = none)
    (hqual : ∃ j ∈ cjobs0, priority < j.priority) :
    ∃ (c : Nat) (kOld : Nat) (old0 : Job) (s' : SchedState),
      cjobs0.get? c = some old0 ∧
      s0.slots.get? c = some (some kOld) ∧
      priority < old0.priority ∧
      (∀ m jx, cjobs0.get? m = some jx → priority < jx.priority →
        jx.priority ≤ old0.priority ∧
        (jx.priority = old0.priority → jx.t_arrival ≤ old0.t_arrival)) ∧
      scheduler_new_job s0 job_number time running_time priority =
        some ((c : Int), s') ∧
      s'.slots.get? c = some (some s0.alloc) ∧
      hget s'.heap s0.alloc =
        some (runJob time (newJobMalloc job_number time running_time priority)
          (c : Int)) ∧
      s0.alloc ∈ s'.queue ∧
      (∃ jE, hget s'.heap kOld = some jE ∧ jE.j_core = -1 ∧
        jE.t_started = (if old0.t_started = time then -1 else old0.t_started)) := by
  obtain ⟨hlen0, hlive, hslot⟩ := slotJobs_spec s0.heap s0.slots cjobs0 hcj
  obtain ⟨h1, htick, hin, hout⟩ := tickSlots_spec time s0.slots s0.heap hlive hnd
  set s := { s0 with c_time := time, n_jobs := s0.n_jobs + 1, heap := h1 }
    with hsdef
  have hinc : increment_timestep { s0 with c_time := time, n_jobs := s0.n_jobs + 1 } =
      some s := by
    unfold increment_timestep
    show (tickSlots time s0.heap s0.slots).map _ = _
    rw [htick]
    rfl
  have hcjobs : slotJobs h1 s0.slots = some (cjobs0.map (tick1 time)) :=
    slotJobs_of_tick time s0.slots s0.heap h1 hin cjobs0 hcj
  have hlenmap : (cjobs0.map (tick1 time)).length = cjobs0.length := by simp
  obtain ⟨ct2, hscan, hres⟩ := ppriScan_go (cjobs0.map (tick1 time)) priority
    (by omega) (cjobs0.map (tick1 time)) 0 (-1) (-1) rfl
    (Or.inl ⟨rfl, rfl, fun m jx hm => by omega⟩)
  rcases hres with ⟨_, hnone⟩ | ⟨c, hct2, hclen, jc, hjc, hjcq, hmax⟩
  · exfalso
    obtain ⟨jq, hjqm, hjq⟩ := hqual
    obtain ⟨m, hm⟩ := List.get?_of_mem hjqm
    have : (cjobs0.map (tick1 time)).get? m = some (tick1 time jq) := by
      rw [List.get?_map, hm]; rfl
    exact hnone m (tick1 time jq) this (by rw [tick1_priority]; exact hjq)
  · have hclen0 : c < cjobs0.length := by rwa [hlenmap] at hclen
    have hjc0 : ∃ old0, cjobs0.get? c = some old0 ∧ jc = tick1 time old0 := by
      rw [List.get?_map] at hjc
      cases hx : cjobs0.get? c
      · rw [hx] at hjc; cases hjc
      · rw [hx] at hjc
        simp only [Option.map_some', Option.some.injEq] at hjc
        exact ⟨_, rfl, hjc.symm⟩
    obtain ⟨old0, hold0, hjceq⟩ := hjc0
    have hold0mem : old0 ∈ cjobs0 := List.get?_mem hold0
    obtain ⟨kOld, jold, hslotc, hkOld, hcjc⟩ := hslot c (by omega)
    have hjoldeq : jold = old0 := by
      rw [hold0] at hcjc
      exact (Option.some.inj hcjc).symm
    rw [hjoldeq] at hkOld
    have hkOld1 : hget h1 kOld = some (tick1 time old0) :=
      hin kOld old0 (List.get?_mem hslotc) hkOld
    have hfresh1 : hget h1 s0.alloc = none := by
      have := tickSlots_isSome time s0.slots s0.heap h1 htick s0.alloc
      rw [hfresh] at this
      cases hx : hget h1 s0.alloc
      · rfl
      · rw [hx] at this; simp at this
    have hkne : kOld ≠ s0.alloc := by
      intro e; rw [e, hfresh1] at hkOld1; cases hkOld1
    have hscan2 : evictionScan Scheme.PPRI (cjobs0.map (tick1 time))
        (newJobMalloc job_number time running_time priority).t_remaining
        (newJobMalloc job_number time running_time priority).priority =
        some ((c : Int)) := by
      show ppriScan (cjobs0.map (tick1 time)) priority
        (cjobs0.map (tick1 time)) 0 (-1) (-1) = some ((c : Int))
      rw [hscan, hct2]
    have e1 : s.slots = s0.slots := rfl
    have e2 : s.heap = h1 := rfl
    have e3 : s.t_scheme = s0.t_scheme := rfl
    have e4 : s.alloc = s0.alloc := rfl
    have e5 : s.c_time = time := rfl
    have hcneg : ¬ ((c : Int) = -1) := by omega
    have htoNat : ((c : Int)).toNat = c := Int.toNat_natCast c
    have hnewjob : scheduler_new_job s0 job_number time running_time priority =
        some ((c : Int), newJobPreemptState s
          (newJobMalloc job_number time running_time priority) (c : Int) kOld
          (tick1 time old0)) := by
      unfold scheduler_new_job
      rw [hinc, Option.some_bind]
      unfold newJobCore
      simp only [e1, e2, e3, hfree, hcjobs, hsch, hscan2, if_neg hcneg, htoNat,
        hslotc, hkOld1]
    refine ⟨c, kOld, old0, _, hold0, hslotc, ?_, ?_, hnewjob, ?_, ?_, ?_, ?_⟩
    · rw [hjceq, tick1_priority] at hjcq
      exact hjcq
    · intro m jx hm hq
      have hmap : (cjobs0.map (tick1 time)).get? m = some (tick1 time jx) := by
        rw [List.get?_map, hm]; rfl
      have := hmax m (tick1 time jx) hmap (by rw [tick1_priority]; exact hq)
      rw [hjceq, tick1_priority, tick1_priority, tick1_arrival, tick1_arrival]
        at this
      exact this
    · show (s.slots.set ((c : Int)).toNat (some s.alloc)).get? c =
        some (some s0.alloc)
      rw [htoNat, e4, e1]
      exact List.get?_set_eq_of_lt _ (by omega)
    · show hget (hput (hput s.heap kOld (evictJob s.c_time (tick1 time old0)))
        s.alloc (runJob s.c_time
          (newJobMalloc job_number time running_time priority) (c : Int)))
        s0.alloc = _
      rw [hget_hput, e4, if_pos rfl, e5]
    · show s0.alloc ∈ (priqueue_offer _ s.queue s.alloc).2
      rw [e4]
      exact (priqueue_offer_perm _ _ _).mem_iff.mpr (List.mem_cons_self _ _)
    · refine ⟨evictJob time (tick1 time old0), ?_, ?_, ?_⟩
      · show hget (hput (hput s.heap kOld (evictJob s.c_time (tick1 time old0)))
          s.alloc (runJob s.c_time
            (newJobMalloc job_number time running_time priority) (c : Int)))
          kOld = _
        rw [hget_hput, e4, if_neg hkne, hget_hput, if_pos rfl, e5]
      · unfold evictJob
        by_cases hc : (tick1 time old0).t_started = time <;> simp [hc]
      · unfold evictJob
        rw [tick1_started _ _ (hstart old0 hold0mem)]
        by_cases hc : old0.t_started = time <;> simp [hc]

/-- PPRI trace on two cores: job 1 (t=0, run 9, priority 5) on core 0, then
job 2 (t=1, run 9, priority 5) on core 1; both cores busy. -/
def ppriBefore : Option (Int × SchedState) :=
  (scheduler_new_job (scheduler_start_up 2 Scheme.PPRI) 1 0 9 5).bind fun r =>
    scheduler_new_job r.2 2 1 9 5

/-- The state of the PPRI trace before the third arrival. -/
def ppriState : SchedState :=
  match ppriBefore with
  | some r => r.2
  | none => scheduler_start_up 2 Scheme.PPRI

/-- The two core jobs of `ppriState` (job 1 has already run one unit). -/
def c4Jobs : List Job :=
  [{ t_arrival := 0, t_total := 9, t_remaining := 8, t_waiting := 0,
     t_updated := 1, t_started := 0, t_end := 0, job_id := 1,
     priority := 5, j_core := 0 },
   { t_arrival := 1, t_total := 9, t_remaining := 9, t_waiting := 0,
     t_updated := 1, t_started := 1, t_end := 0, job_id := 2,
     priority := 5, j_core := 1 }]

/-- Witness for C4 on the concrete PPRI trace: job 3 (t=2, run 4,
priority 1) arrives; both running jobs have priority 5 > 1 and tie, so the
later-arriving job 2 on core 1 is evicted. -/
theorem C4_ppri_eviction_witness :
    ∃ (c : Nat) (kOld : Nat) (old0 : Job) (s' : SchedState),
      c4Jobs.get? c = some old0 ∧
      ppriState.slots.get? c = some (some kOld) ∧
      (1 : Int) < old0.priority ∧
      (∀ m jx, c4Jobs.get? m = some jx → (1 : Int) < jx.priority →
        jx.priority ≤ old0.priority ∧
        (jx.priority = old0.priority → jx.t_arrival ≤ old0.t_arrival)) ∧
      scheduler_new_job ppriState 3 2 4 1 = some ((c : Int), s') ∧
      s'.slots.get? c = some (some ppriState.alloc) ∧
      hget s'.heap ppriState.alloc =
        some (runJob 2 (newJobMalloc 3 2 4 1) (c : Int)) ∧
      ppriState.alloc ∈ s'.queue ∧
      (∃ jE, hget s'.heap kOld = some jE ∧ jE.j_core = -1 ∧
        jE.t_started = (if old0.t_started = 2 then -1 else old0.t_started)) :=
  C4_ppri_eviction ppriState 3 2 4 1 c4Jobs (by decide) (by decide) (by decide)
    (by decide) (by decide) (by decide) (by decide) (by decide)

/- ## The cross-call consistency invariant (claim C10) -/

/-- The state invariant maintained between top-level scheduler calls, on the
components of `SchedState`:
(1) every occupied core slot holds a live job whose core field points back
    at that slot and whose start timestamp is set;
(2) every live pointer is below the allocation counter;
(3) every queued pointer is live;
(4) every live job with a core assignment is held by exactly that slot;
(5) every slot-held job is in the queue;
(6) the queued jobs have pairwise distinct ids. -/
def InvC (alloc : Nat) (heap : Heap) (queue : List Nat)
    (slots : List (Option Nat)) : Prop :=
  (∀ i k, slots.get? i = some (some k) →
    ∃ j, hget heap k = some j ∧ j.j_core = (i : Int) ∧ j.t_started ≠ -1) ∧
  (∀ k j, hget heap k = some j → k < alloc) ∧
  (∀ k, k ∈ queue → ∃ j, hget heap k = some j) ∧
  (∀ k j, hget heap k = some j → j.j_core ≠ -1 →
    ∃ i : Nat, (i : Int) = j.j_core ∧ slots.get? i = some (some k)) ∧
  (∀ i k, slots.get? i = some (some k) → k ∈ queue) ∧
  (queue.map fun k => (hget heap k).map Job.job_id).Nodup

/-- The invariant of a scheduler state. -/
def SchedInv (s : SchedState) : Prop := InvC s.alloc s.heap s.queue s.slots

/-- Clause (1) makes the occupied slots pairwise distinct. -/
theorem slots_key_unique {alloc heap queue slots}
    (hI : InvC alloc heap queue slots) :
    ∀ i i' k, slots.get? i = some (some k) → slots.get? i' = some (some k) →
      i = i' := by
  intro i i' k h1 h2
  obtain ⟨j, hj, hc, _⟩ := hI.1 i k h1
  obtain ⟨j', hj', hc', _⟩ := hI.1 i' k h2
  rw [hj] at hj'
  cases hj'
  omega

theorem slots_nodup_of_unique :
    ∀ (slots : List (Option Nat)),
      (∀ i i' k, slots.get? i = some (some k) → slots.get? i' = some (some k) →
        i = i') →
      (slots.filterMap id).Nodup := by
  intro slots
  induction slots with
  | nil => intro _; simp
  | cons os rest ih =>
    intro hu
    match os with
    | none =>
      simp only [List.filterMap_cons]
      exact ih fun i i' k h1 h2 => by
        have := hu (i + 1) (i' + 1) k (by simpa using h1) (by simpa using h2)
        omega
    | some k0 =>
      simp only [List.filterMap_cons, id]
      rw [List.nodup_cons]
      constructor
      · intro hmem
        have : some k0 ∈ rest := mem_slots_iff_filterMap.mpr hmem
        obtain ⟨m, hm⟩ := List.get?_of_mem this
        have := hu 0 (m + 1) k0 rfl (by simpa using hm)
        omega
      · exact ih fun i i' k h1 h2 => by
          have := hu (i + 1) (i' + 1) k (by simpa using h1) (by simpa using h2)
          omega

/-- A list is a permutation of its `i`-th element consed onto the removal of
position `i`. -/
theorem perm_get_cons_eraseIdx :
    ∀ (l : List Nat) (i : Nat) (a : Nat), l.get? i = some a →
      l.Perm (a :: l.eraseIdx i) := by
  intro l
  induction l with
  | nil => intro i a h; cases h
  | cons b rest ih =>
    intro i a h
    match i with
    | 0 =>
      cases h
      exact List.Perm.refl _
    | i + 1 =>
      have hrec := ih i a (by simpa using h)
      have h1 : (b :: rest).Perm (b :: a :: rest.eraseIdx i) := hrec.cons b
      have h2 : (b :: a :: rest.eraseIdx i).Perm (a :: b :: rest.eraseIdx i) :=
        List.Perm.swap a b _
      exact h1.trans h2

/-- `freeCore` returns the index of an empty slot. -/
theorem freeCore_spec :
    ∀ (sl : List (Option Nat)) (i : Nat), freeCore sl = some i →
      sl.get? i = some none := by
  intro sl
  induction sl with
  | nil => intro i h; cases h
  | cons os rest ih =>
    intro i h
    match os with
    | none =>
      cases h
      rfl
    | some k =>
      unfold freeCore at h
      rcases hr : freeCore rest with _ | i0
      · rw [hr] at h; cases h
      · rw [hr] at h
        simp only [Option.map_some', Option.some.injEq] at h
        subst h
        simpa using ih i0 hr

/-- A successful job search finds a live job carrying the searched id. -/
theorem findJobIdx_found (h : Heap) (id : Int) :
    ∀ (q : List Nat) (n i k : Nat),
      findJobIdx h id q n = some (some (i, k)) →
      ∃ j, hget h k = some j ∧ j.job_id = id := by
  intro q
  induction q with
  | nil => intro n i k hh; simp [findJobIdx] at hh
  | cons k0 rest ih =>
    intro n i k hh
    unfold findJobIdx at hh
    rcases hj0 : hget h k0 with _ | j0
    · simp only [hj0] at hh
      exact Option.noConfusion hh
    · simp only [hj0] at hh
      by_cases hid : j0.job_id = id
      · rw [if_pos hid] at hh
        simp only [Option.some.injEq, Prod.mk.injEq] at hh
        rw [← hh.2]
        exact ⟨j0, hj0, hid⟩
      · rw [if_neg hid] at hh
        exact ih (n + 1) i k hh

/-- A search that ends without a match saw no queued live job with the id. -/
theorem findJobIdx_none (h : Heap) (id : Int) :
    ∀ (q : List Nat) (n : Nat), findJobIdx h id q n = some none →
      ∀ k ∈ q, ∀ j, hget h k = some j → j.job_id ≠ id := by
  intro q
  induction q with
  | nil => intro n _ k hk; exact absurd hk (List.not_mem_nil _)
  | cons k0 rest ih =>
    intro n hh k hk j hj
    unfold findJobIdx at hh
    rcases hj0 : hget h k0 with _ | j0
    · simp only [hj0] at hh
      exact Option.noConfusion hh
    · simp only [hj0] at hh
      by_cases hid : j0.job_id = id
      · rw [if_pos hid] at hh; cases hh
      · rw [if_neg hid] at hh
        rcases List.mem_cons.mp hk with h1 | h1
        · subst h1
          rw [hj0] at hj
          cases hj
          exact hid
        · exact ih (n + 1) hh k h1 j hj

/-- A search for an unassigned job that fails saw no queued live job without
a core. -/
theorem findUnassigned_none (h : Heap) :
    ∀ (q : List Nat), findUnassigned h q = some none →
      ∀ k ∈ q, ∀ j, hget h k = some j → j.j_core ≠ -1 := by
  intro q
  induction q with
  | nil => intro _ k hk; exact absurd hk (List.not_mem_nil _)
  | cons k0 rest ih =>
    intro hh k hk j hj
    unfold findUnassigned at hh
    rcases hj0 : hget h k0 with _ | j0
    · simp only [hj0] at hh
      exact Option.noConfusion hh
    · simp only [hj0] at hh
      by_cases hc : j0.j_core = -1
      · rw [if_pos hc] at hh; cases hh
      · rw [if_neg hc] at hh
        rcases List.mem_cons.mp hk with h1 | h1
        · subst h1
          rw [hj0] at hj
          cases hj
          exact hc
        · exact ih hh k h1 j hj

/-- The PSJF scan only ever answers `-1` or a core index. -/
theorem psjfScan_shape (rt : Int) :
    ∀ (rest : List Job) (n : Nat) (ct cl : Int),
      (ct = -1 ∨ ∃ c : Nat, ct = (c : Int)) →
      (psjfScan rt rest n ct cl = -1 ∨
        ∃ c : Nat, psjfScan rt rest n ct cl = (c : Int)) := by
  intro rest
  induction rest with
  | nil => intro n ct cl hct; exact hct
  | cons j rest ih =>
    intro n ct cl hct
    unfold psjfScan
    by_cases h1 : j.t_remaining > rt
    · rw [if_pos h1]
      by_cases h2 : j.t_remaining > cl
      · rw [if_pos h2]
        exact ih (n + 1) _ _ (Or.inr ⟨n, rfl⟩)
      · rw [if_neg h2]
        exact ih (n + 1) _ _ hct
    · rw [if_neg h1]
      exact ih (n + 1) _ _ hct

/-- The PPRI scan only ever answers `-1` or a core index. -/
theorem ppriScan_shape (all : List Job) (p : Int) :
    ∀ (rest : List Job) (n : Nat) (ct cp : Int),
      (ct = -1 ∨ ∃ c : Nat, ct = (c : Int)) →
      ∀ ct2, ppriScan all p rest n ct cp = some ct2 →
      (ct2 = -1 ∨ ∃ c : Nat, ct2 = (c : Int)) := by
  intro rest
  induction rest with
  | nil =>
    intro n ct cp hct ct2 hh
    cases hh
    exact hct
  | cons j rest ih =>
    intro n ct cp hct ct2 hh
    unfold ppriScan at hh
    by_cases h1 : j.priority > p
    · rw [if_pos h1] at hh
      by_cases h2 : j.priority > cp
      · rw [if_pos h2] at hh
        exact ih (n + 1) _ _ (Or.inr ⟨n, rfl⟩) ct2 hh
      · rw [if_neg h2] at hh
        by_cases h3 : j.priority = cp
        · rw [if_pos h3] at hh
          by_cases h4 : ct < 0
          · rw [if_pos h4] at hh; cases hh
          · rw [if_neg h4] at hh
            rcases hg : all.get? ct.toNat with _ | jct
            · simp only [hg] at hh
              exact Option.noConfusion hh
            · simp only [hg] at hh
              by_cases h5 : j.t_arrival > jct.t_arrival
              · rw [if_pos h5] at hh
                exact ih (n + 1) _ _ (Or.inr ⟨n, rfl⟩) ct2 hh
              · rw [if_neg h5] at hh
                exact ih (n + 1) _ _ hct ct2 hh
        · rw [if_neg h3] at hh
          exact ih (n + 1) _ _ hct ct2 hh
    · rw [if_neg h1] at hh
      exact ih (n + 1) _ _ hct ct2 hh

/-- The eviction target, when not `-1`, is a core index. -/
theorem evictionScan_shape (sch : Scheme) (cjobs : List Job) (rt pr ctv : Int)
    (h : evictionScan sch cjobs rt pr = some ctv) (hne : ctv ≠ -1) :
    ∃ c : Nat, ctv = (c : Int) := by
  have hshape : ctv = -1 ∨ ∃ c : Nat, ctv = (c : Int) := by
    cases sch
    case PSJF =>
      have := psjfScan_shape rt cjobs 0 (-1) (-1) (Or.inl rfl)
      have he : psjfScan rt cjobs 0 (-1) (-1) = ctv := Option.some.inj h
      rwa [he] at this
    case PPRI =>
      exact ppriScan_shape cjobs pr cjobs 0 (-1) (-1) (Or.inl rfl) ctv h
    all_goals
      exact Or.inl (Option.some.inj h).symm
  rcases hshape with h1 | h1
  · exact absurd h1 hne
  · exact h1

/-- The clock advance preserves the invariant: it only rewrites slot-held
jobs, and the per-job rule keeps identity, core field, start flag and
liveness. -/
theorem InvC_tick {alloc : Nat} {heap : Heap} {queue : List Nat}
    {slots : List (Option Nat)} (t : Int) {h1 : Heap}
    (hI : InvC alloc heap queue slots)
    (htick : tickSlots t heap slots = some h1) :
    InvC alloc h1 queue slots := by
  have hnd : (slots.filterMap id).Nodup :=
    slots_nodup_of_unique slots (slots_key_unique hI)
  have hlive : ∀ k, some k ∈ slots → (hget heap k).isSome = true := by
    intro k hk
    obtain ⟨m, hm⟩ := List.get?_of_mem hk
    obtain ⟨j, hj, _, _⟩ := hI.1 m k hm
    rw [hj]; rfl
  obtain ⟨h1x, htick2, hin, hout⟩ := tickSlots_spec t slots heap hlive hnd
  rw [htick] at htick2
  cases htick2
  have hsame : ∀ k, (hget h1 k).isSome = (hget heap k).isSome :=
    tickSlots_isSome t slots heap h1 htick
  have hid : ∀ k, (hget h1 k).map Job.job_id = (hget heap k).map Job.job_id :=
    tickSlots_preserves Job.job_id
      (fun t x => by unfold tick1; by_cases hc : x.t_started = -1 ∧ x.t_updated ≠ t <;>
        simp [hc]) t slots heap h1 htick
  have hcore : ∀ k, (hget h1 k).map Job.j_core = (hget heap k).map Job.j_core :=
    tickSlots_preserves Job.j_core
      (fun t x => by unfold tick1; by_cases hc : x.t_started = -1 ∧ x.t_updated ≠ t <;>
        simp [hc]) t slots heap h1 htick
  obtain ⟨c1, c2, c3, c4, c5, c6⟩ := hI
  refine ⟨?_, ?_, ?_, ?_, c5, ?_⟩
  · intro i k hs
    obtain ⟨j, hj, hc, hst⟩ := c1 i k hs
    have hcond : ¬(j.t_started = -1 ∧ j.t_updated ≠ t) := fun hx => hst hx.1
    refine ⟨tick1 t j, hin k j (List.get?_mem hs) hj, ?_, ?_⟩
    · unfold tick1; rw [if_neg hcond]; exact hc
    · unfold tick1; rw [if_neg hcond]; exact hst
  · intro k j hj
    have := hsame k
    rw [hj] at this
    cases hx : hget heap k
    · rw [hx] at this; simp at this
    · exact c2 k _ hx
  · intro k hk
    obtain ⟨j, hj⟩ := c3 k hk
    have := hsame k
    rw [hj] at this
    cases hx : hget h1 k
    · rw [hx] at this; simp at this
    · exact ⟨_, rfl⟩
  · intro k j1 hj1 hc1
    have := hcore k
    rw [hj1] at this
    cases hx : hget heap k
    · rw [hx] at this; simp at this
    · rw [hx] at this
      simp only [Option.map_some', Option.some.injEq] at this
      rename_i j0
      obtain ⟨i, hi1, hi2⟩ := c4 k j0 hx (by rw [← this]; exact hc1)
      exact ⟨i, by rw [hi1, this], hi2⟩
  · have hfeq : (fun k => (hget h1 k).map Job.job_id) =
        (fun k => (hget heap k).map Job.job_id) := funext hid
    rw [hfeq]
    exact c6

/-- The start-up state satisfies the invariant. -/
theorem SchedInv_start (cores : Nat) (sch : Scheme) :
    SchedInv (scheduler_start_up cores sch) := by
  refine ⟨?_, ?_, ?_, ?_, ?_, ?_⟩
  · intro i k hs
    have := List.get?_mem hs
    have := List.eq_of_mem_replicate this
    cases this
  · intro k j hj
    cases hj
  · intro k hk
    exact absurd hk (List.not_mem_nil _)
  · intro k j hj
    cases hj
  · intro i k hs
    have := List.get?_mem hs
    have := List.eq_of_mem_replicate this
    cases this
  · show ((List.map _ []).Nodup)
    simp

/-- The invariant of a state about to run the shared dispatch tail on core
`cid`: all clauses of `InvC` hold away from slot `cid`, no job claims core
`cid`, and whatever still sits in slot `cid` is a queued job without a core
(a just-rotated job about to be replaced). -/
def DInv (s : SchedState) (cid : Nat) : Prop :=
  (∀ i k, i ≠ cid → s.slots.get? i = some (some k) →
    ∃ j, hget s.heap k = some j ∧ j.j_core = (i : Int) ∧ j.t_started ≠ -1) ∧
  (∀ k j, hget s.heap k = some j → k < s.alloc) ∧
  (∀ k, k ∈ s.queue → ∃ j, hget s.heap k = some j) ∧
  (∀ k j, hget s.heap k = some j → j.j_core ≠ -1 →
    j.j_core ≠ (cid : Int) ∧
    ∃ i : Nat, (i : Int) = j.j_core ∧ s.slots.get? i = some (some k)) ∧
  (∀ i k, i ≠ cid → s.slots.get? i = some (some k) → k ∈ s.queue) ∧
  (s.queue.map fun k => (hget s.heap k).map Job.job_id).Nodup ∧
  cid < s.slots.length ∧
  (∀ k, s.slots.get? cid = some (some k) →
    k ∈ s.queue ∧ ∃ j, hget s.heap k = some j ∧ j.j_core = -1)

/-- When slot `cid` is empty, the dispatch precondition is the full
invariant. -/
theorem SchedInv_of_DInv_idle {s : SchedState} {cid : Nat}
    (hD : DInv s cid) (hidle : s.slots.get? cid = some none) : SchedInv s := by
  obtain ⟨d1, d2, d3, d4, d5, d6, d7, d8⟩ := hD
  refine ⟨?_, d2, d3, ?_, ?_, d6⟩
  · intro i k hs
    by_cases he : i = cid
    · rw [he, hidle] at hs
      cases hs
    · exact d1 i k he hs
  · intro k j hj hc
    exact (d4 k j hj hc).2
  · intro i k hs
    by_cases he : i = cid
    · rw [he, hidle] at hs
      cases hs
    · exact d5 i k he hs

/-- The shared dispatch tail restores the full invariant from the dispatch
precondition. -/
theorem SchedInv_dispatchNext {s : SchedState} {cid : Nat} {r : Int}
    {s' : SchedState} (hD : DInv s cid) (ht : 0 ≤ s.c_time)
    (h : dispatchNext s cid = some (r, s')) : SchedInv s' := by
  obtain ⟨d1, d2, d3, d4, d5, d6, d7, d8⟩ := hD
  rcases dispatchNext_inv h with ⟨hu, _, hs'⟩ | ⟨k2, j2, hu, hj2, _, hs'⟩
  · rw [hs']
    have hnone : ∀ k ∈ s.queue, ∀ j, hget s.heap k = some j → j.j_core ≠ -1 :=
      findUnassigned_none s.heap s.queue hu
    refine SchedInv_of_DInv_idle ⟨d1, d2, d3, d4, d5, d6, d7, d8⟩ ?_
    rcases hc : s.slots.get? cid with _ | os
    · exfalso
      rw [List.get?_eq_none] at hc
      omega
    · match os with
      | none => rfl
      | some k =>
        obtain ⟨hmem, j, hj, hjc⟩ := d8 k hc
        exact absurd hjc (hnone k hmem j hj)
  · rw [hs']
    obtain ⟨j2x, hj2x, hj2c, hj2mem⟩ := findUnassigned_core s.heap s.queue k2 hu
    rw [hj2] at hj2x
    cases hj2x
    have hk2lt : k2 < s.alloc := d2 k2 j2 hj2
    refine ⟨?_, ?_, ?_, ?_, ?_, ?_⟩
    · intro i k hs
      by_cases he : i = cid
      · subst he
        rw [show (dispatchState s i k2 j2).slots = s.slots.set i (some k2)
          from rfl, List.get?_set_eq_of_lt _ d7] at hs
        cases hs
        refine ⟨dispatchOn s.c_time i j2, ?_, ?_, ?_⟩
        · show hget (hput s.heap k2 _) k2 = _
          rw [hget_hput, if_pos rfl]
        · unfold dispatchOn
          by_cases hst : j2.t_started = -1 <;> simp [hst]
        · unfold dispatchOn
          by_cases hst : j2.t_started = -1 <;> simp [hst] <;> omega
      · rw [show (dispatchState s cid k2 j2).slots = s.slots.set cid (some k2)
          from rfl, List.get?_set_ne _ _ (Ne.symm he)] at hs
        obtain ⟨j, hj, hc, hst⟩ := d1 i k he hs
        have hkne : k ≠ k2 := by
          intro e
          rw [e, hj2] at hj
          cases hj
          omega
        refine ⟨j, ?_, hc, hst⟩
        show hget (hput s.heap k2 _) k = some j
        rw [hget_hput, if_neg hkne]
        exact hj
    · intro k j hj
      rw [show (dispatchState s cid k2 j2).heap =
        hput s.heap k2 (dispatchOn s.c_time cid j2) from rfl, hget_hput] at hj
      show k < s.alloc
      by_cases he : k = k2
      · subst he
        exact hk2lt
      · rw [if_neg he] at hj
        exact d2 k j hj
    · intro k hk
      obtain ⟨j, hj⟩ := d3 k hk
      show ∃ jx, hget (hput s.heap k2 (dispatchOn s.c_time cid j2)) k = some jx
      rw [hget_hput]
      by_cases he : k = k2
      · rw [if_pos he]
        exact ⟨_, rfl⟩
      · rw [if_neg he]
        exact ⟨j, hj⟩
    · intro k j hj hcne
      rw [show (dispatchState s cid k2 j2).heap =
        hput s.heap k2 (dispatchOn s.c_time cid j2) from rfl, hget_hput] at hj
      by_cases he : k = k2
      · rw [if_pos he] at hj
        cases hj
        refine ⟨cid, ?_, ?_⟩
        · show ((cid : Nat) : Int) = (dispatchOn s.c_time cid j2).j_core
          unfold dispatchOn
          by_cases hst : j2.t_started = -1 <;> simp [hst]
        · rw [show (dispatchState s cid k2 j2).slots = s.slots.set cid (some k2)
            from rfl, he, List.get?_set_eq_of_lt _ d7]
      · rw [if_neg he] at hj
        obtain ⟨hnc, i, hi, hslot⟩ := d4 k j hj hcne
        have hine : i ≠ cid := by
          intro e
          rw [e] at hi
          exact hnc hi.symm
        refine ⟨i, hi, ?_⟩
        rw [show (dispatchState s cid k2 j2).slots = s.slots.set cid (some k2)
          from rfl, List.get?_set_ne _ _ (Ne.symm hine)]
        exact hslot
    · intro i k hs
      by_cases he : i = cid
      · subst he
        rw [show (dispatchState s i k2 j2).slots = s.slots.set i (some k2)
          from rfl, List.get?_set_eq_of_lt _ d7] at hs
        cases hs
        exact hj2mem
      · rw [show (dispatchState s cid k2 j2).slots = s.slots.set cid (some k2)
          from rfl, List.get?_set_ne _ _ (Ne.symm he)] at hs
        exact d5 i k he hs
    · have hfeq : (fun k => (hget (hput s.heap k2 (dispatchOn s.c_time cid j2)) k).map
          Job.job_id) = (fun k => (hget s.heap k).map Job.job_id) := by
        funext k
        rw [hget_hput]
        by_cases he : k = k2
        · subst he
          rw [if_pos rfl, hj2]
          show some (dispatchOn s.c_time cid j2).job_id = some j2.job_id
          unfold dispatchOn
          by_cases hst : j2.t_started = -1 <;> simp [hst]
        · rw [if_neg he]
      show ((dispatchState s cid k2 j2).queue.map fun k =>
        (hget (dispatchState s cid k2 j2).heap k).map Job.job_id).Nodup
      rw [show (dispatchState s cid k2 j2).queue = s.queue from rfl,
        show (dispatchState s cid k2 j2).heap =
          hput s.heap k2 (dispatchOn s.c_time cid j2) from rfl, hfeq]
      exact d6

theorem get?_lt {α : Type} {l : List α} {n : Nat} {a : α} (h : l.get? n = some a) :
    n < l.length := by
  by_contra hc
  rw [List.get?_eq_none.mpr (by omega)] at h
  cases h

theorem evictJob_core (t : Int) (old : Job) : (evictJob t old).j_core = -1 := by
  unfold evictJob
  by_cases hc : old.t_started = t <;> simp [hc]

theorem evictJob_id (t : Int) (old : Job) : (evictJob t old).job_id = old.job_id := by
  unfold evictJob
  by_cases hc : old.t_started = t <;> simp [hc]

/-- Enqueuing a fresh job with an unused id keeps the queued ids pairwise
distinct. -/
theorem nodup_ids_grow {heap : Heap} {queue : List Nat} (kN : Nat) (X : Job)
    (hfresh : hget heap kN = none)
    (c3 : ∀ k ∈ queue, ∃ j, hget heap k = some j)
    (c6 : (queue.map fun k => (hget heap k).map Job.job_id).Nodup)
    (hid : ∀ k ∈ queue, ∀ j, hget heap k = some j → j.job_id ≠ X.job_id)
    (q2 : List Nat) (hq2 : q2.Perm (kN :: queue)) (hp : Heap)
    (hpN : (hget hp kN).map Job.job_id = some X.job_id)
    (hp_at : ∀ k, k ≠ kN →
      (hget hp k).map Job.job_id = (hget heap k).map Job.job_id) :
    (q2.map fun k => (hget hp k).map Job.job_id).Nodup := by
  have hperm := hq2.map fun k => (hget hp k).map Job.job_id
  rw [hperm.nodup_iff]
  simp only [List.map_cons]
  rw [List.nodup_cons]
  have hne : ∀ k ∈ queue, k ≠ kN := by
    intro k hk he
    obtain ⟨j, hj⟩ := c3 k hk
    rw [he, hfresh] at hj
    cases hj
  have hcongr : queue.map (fun k => (hget hp k).map Job.job_id) =
      queue.map (fun k => (hget heap k).map Job.job_id) :=
    List.map_congr_left fun k hk => hp_at k (hne k hk)
  constructor
  · rw [hpN, hcongr]
    intro hmem
    obtain ⟨k, hk, hkeq⟩ := List.mem_map.mp hmem
    obtain ⟨j, hj⟩ := c3 k hk
    rw [hj] at hkeq
    simp only [Option.map_some', Option.some.injEq] at hkeq
    exact hid k hk j hj hkeq
  · rw [hcongr]
    exact c6

/-- The post-clock-advance body of `scheduler_new_job` preserves the
invariant, for a fresh job id, on any arriving job record without a core
assignment (the arrival time is the current time, which is nonnegative). -/
theorem SchedInv_newJobCore {s : SchedState} {job : Job} {r : Int}
    {s' : SchedState} (hI : SchedInv s) (ht : 0 ≤ s.c_time)
    (hjc : job.j_core = -1)
    (hid : ∀ k ∈ s.queue, ∀ j, hget s.heap k = some j → j.job_id ≠ job.job_id)
    (h : newJobCore s job = some (r, s')) : SchedInv s' := by
  obtain ⟨c1, c2, c3, c4, c5, c6⟩ := hI
  have hfresh : hget s.heap s.alloc = none := by
    cases hx : hget s.heap s.alloc
    · rfl
    · exact absurd (c2 s.alloc _ hx) (lt_irrefl _)
  rcases newJobCore_inv h with ⟨i, hfc, _, hs'⟩ | ⟨cjobs, _, _, _, _, hs'⟩ |
    ⟨cjobs, ctv, kOld, old, _, _, hscan, hctv, hsl, hold, _, hs'⟩
  · -- idle-core dispatch
    rw [hs']
    have hslot_i : s.slots.get? i = some none := freeCore_spec s.slots i hfc
    have hilt : i < s.slots.length := get?_lt hslot_i
    have hqperm : (newJobFreeState s job i).queue.Perm (s.alloc :: s.queue) :=
      priqueue_offer_perm _ _ _
    refine ⟨?_, ?_, ?_, ?_, ?_, ?_⟩
    · intro i' k hs2
      rw [show (newJobFreeState s job i).slots = s.slots.set i (some s.alloc)
        from rfl] at hs2
      by_cases he : i' = i
      · subst he
        rw [List.get?_set_eq_of_lt _ hilt] at hs2
        cases hs2
        refine ⟨runJob s.c_time job (i' : Int), ?_, rfl, by
          show ¬ s.c_time = -1; omega⟩
        show hget (hput s.heap s.alloc _) s.alloc = _
        rw [hget_hput, if_pos rfl]
      · rw [List.get?_set_ne _ _ (Ne.symm he)] at hs2
        obtain ⟨j, hj, hc, hst⟩ := c1 i' k hs2
        have hkne : k ≠ s.alloc := by
          intro e; rw [e, hfresh] at hj; cases hj
        refine ⟨j, ?_, hc, hst⟩
        show hget (hput s.heap s.alloc _) k = some j
        rw [hget_hput, if_neg hkne]
        exact hj
    · intro k j hj
      rw [show (newJobFreeState s job i).heap =
        hput s.heap s.alloc (runJob s.c_time job (i : Int)) from rfl,
        hget_hput] at hj
      show k < s.alloc + 1
      by_cases he : k = s.alloc
      · omega
      · rw [if_neg he] at hj
        have := c2 k j hj
        omega
    · intro k hk
      have hk2 := hqperm.mem_iff.mp hk
      show ∃ j, hget (hput s.heap s.alloc (runJob s.c_time job (i : Int))) k =
        some j
      rw [hget_hput]
      rcases List.mem_cons.mp hk2 with he | hmem
      · rw [if_pos he]
        exact ⟨_, rfl⟩
      · obtain ⟨j, hj⟩ := c3 k hmem
        have hkne : k ≠ s.alloc := by
          intro e; rw [e, hfresh] at hj; cases hj
        rw [if_neg hkne]
        exact ⟨j, hj⟩
    · intro k j hj hc
      rw [show (newJobFreeState s job i).heap =
        hput s.heap s.alloc (runJob s.c_time job (i : Int)) from rfl,
        hget_hput] at hj
      by_cases he : k = s.alloc
      · rw [if_pos he] at hj
        cases hj
        refine ⟨i, rfl, ?_⟩
        show (s.slots.set i (some s.alloc)).get? i = some (some k)
        rw [he, List.get?_set_eq_of_lt _ hilt]
      · rw [if_neg he] at hj
        obtain ⟨i0, hi0, hslot0⟩ := c4 k j hj hc
        have hi0ne : i0 ≠ i := by
          intro e
          rw [e, hslot_i] at hslot0
          cases hslot0
        refine ⟨i0, hi0, ?_⟩
        show (s.slots.set i (some s.alloc)).get? i0 = some (some k)
        rw [List.get?_set_ne _ _ (Ne.symm hi0ne)]
        exact hslot0
    · intro i' k hs2
      rw [show (newJobFreeState s job i).slots = s.slots.set i (some s.alloc)
        from rfl] at hs2
      by_cases he : i' = i
      · subst he
        rw [List.get?_set_eq_of_lt _ hilt] at hs2
        cases hs2
        exact hqperm.mem_iff.mpr (List.mem_cons_self _ _)
      · rw [List.get?_set_ne _ _ (Ne.symm he)] at hs2
        exact hqperm.mem_iff.mpr (List.mem_cons_of_mem _ (c5 i' k hs2))
    · refine nodup_ids_grow s.alloc (runJob s.c_time job (i : Int)) hfresh c3 c6
        ?_ _ hqperm _ ?_ ?_
      · intro k hk j hj hje
        exact hid k hk j hj hje
      · show (hget (hput s.heap s.alloc _) s.alloc).map Job.job_id = _
        rw [hget_hput, if_pos rfl]
        rfl
      · intro k hkne
        show (hget (hput s.heap s.alloc _) k).map Job.job_id = _
        rw [hget_hput, if_neg hkne]
  · -- enqueue unscheduled
    rw [hs']
    have hqperm : (newJobEnqueueState s job).queue.Perm (s.alloc :: s.queue) :=
      priqueue_offer_perm _ _ _
    refine ⟨?_, ?_, ?_, ?_, ?_, ?_⟩
    · intro i' k hs2
      obtain ⟨j, hj, hc, hst⟩ := c1 i' k hs2
      have hkne : k ≠ s.alloc := by
        intro e; rw [e, hfresh] at hj; cases hj
      refine ⟨j, ?_, hc, hst⟩
      show hget (hput s.heap s.alloc job) k = some j
      rw [hget_hput, if_neg hkne]
      exact hj
    · intro k j hj
      rw [show (newJobEnqueueState s job).heap = hput s.heap s.alloc job
        from rfl, hget_hput] at hj
      show k < s.alloc + 1
      by_cases he : k = s.alloc
      · omega
      · rw [if_neg he] at hj
        have := c2 k j hj
        omega
    · intro k hk
      have hk2 := hqperm.mem_iff.mp hk
      show ∃ j, hget (hput s.heap s.alloc job) k = some j
      rw [hget_hput]
      rcases List.mem_cons.mp hk2 with he | hmem
      · rw [if_pos he]
        exact ⟨_, rfl⟩
      · obtain ⟨j, hj⟩ := c3 k hmem
        have hkne : k ≠ s.alloc := by
          intro e; rw [e, hfresh] at hj; cases hj
        rw [if_neg hkne]
        exact ⟨j, hj⟩
    · intro k j hj hc
      rw [show (newJobEnqueueState s job).heap = hput s.heap s.alloc job
        from rfl, hget_hput] at hj
      by_cases he : k = s.alloc
      · rw [if_pos he] at hj
        cases hj
        exact absurd hjc hc
      · rw [if_neg he] at hj
        obtain ⟨i0, hi0, hslot0⟩ := c4 k j hj hc
        exact ⟨i0, hi0, hslot0⟩
    · intro i' k hs2
      exact hqperm.mem_iff.mpr (List.mem_cons_of_mem _ (c5 i' k hs2))
    · refine nodup_ids_grow s.alloc job hfresh c3 c6 hid _ hqperm _ ?_ ?_
      · show (hget (hput s.heap s.alloc job) s.alloc).map Job.job_id = _
        rw [hget_hput, if_pos rfl]
        rfl
      · intro k hkne
        show (hget (hput s.heap s.alloc job) k).map Job.job_id = _
        rw [hget_hput, if_neg hkne]
  · -- preemption
    rw [hs']
    obtain ⟨c0, hc0⟩ := evictionScan_shape s.t_scheme cjobs job.t_remaining
      job.priority ctv hscan hctv
    have hctvnat : (ctv.toNat : Int) = ctv := by omega
    have hkOldlt : kOld < s.alloc := c2 kOld old hold
    have hkOldne : kOld ≠ s.alloc := by omega
    have hclt : ctv.toNat < s.slots.length := get?_lt hsl
    obtain ⟨oldj, holdj, holdc, holdst⟩ := c1 ctv.toNat kOld hsl
    have holdeq : oldj = old := by
      rw [hold] at holdj
      exact (Option.some.inj holdj).symm
    rw [holdeq] at holdc holdst
    have hqperm : (newJobPreemptState s job ctv kOld old).queue.Perm
        (s.alloc :: s.queue) := priqueue_offer_perm _ _ _
    have hp_at : ∀ k, hget (newJobPreemptState s job ctv kOld old).heap k =
        if k = s.alloc then some (runJob s.c_time job ctv)
        else if k = kOld then some (evictJob s.c_time old)
        else hget s.heap k := by
      intro k
      show hget (hput (hput s.heap kOld (evictJob s.c_time old)) s.alloc
        (runJob s.c_time job ctv)) k = _
      rw [hget_hput, hget_hput]
    refine ⟨?_, ?_, ?_, ?_, ?_, ?_⟩
    · intro i' k hs2
      rw [show (newJobPreemptState s job ctv kOld old).slots =
        s.slots.set ctv.toNat (some s.alloc) from rfl] at hs2
      by_cases he : i' = ctv.toNat
      · subst he
        rw [List.get?_set_eq_of_lt _ hclt] at hs2
        cases hs2
        refine ⟨runJob s.c_time job ctv, ?_, ?_, by
          show ¬ s.c_time = -1; omega⟩
        · rw [hp_at, if_pos rfl]
        · show (runJob s.c_time job ctv).j_core = _
          show ctv = _
          omega
      · rw [List.get?_set_ne _ _ (Ne.symm he)] at hs2
        obtain ⟨j, hj, hc, hst⟩ := c1 i' k hs2
        have hkne : k ≠ s.alloc := by
          intro e; rw [e, hfresh] at hj; cases hj
        have hkne2 : k ≠ kOld := by
          intro e
          subst e
          rw [hold] at hj
          cases hj
          omega
        refine ⟨j, ?_, hc, hst⟩
        rw [hp_at, if_neg hkne, if_neg hkne2]
        exact hj
    · intro k j hj
      rw [hp_at] at hj
      show k < s.alloc + 1
      by_cases he : k = s.alloc
      · omega
      · rw [if_neg he] at hj
        by_cases he2 : k = kOld
        · omega
        · rw [if_neg he2] at hj
          have := c2 k j hj
          omega
    · intro k hk
      have hk2 := hqperm.mem_iff.mp hk
      rw [hp_at]
      rcases List.mem_cons.mp hk2 with he | hmem
      · rw [if_pos he]
        exact ⟨_, rfl⟩
      · obtain ⟨j, hj⟩ := c3 k hmem
        have hkne : k ≠ s.alloc := by
          intro e; rw [e, hfresh] at hj; cases hj
        rw [if_neg hkne]
        by_cases he2 : k = kOld
        · rw [if_pos he2]
          exact ⟨_, rfl⟩
        · rw [if_neg he2]
          exact ⟨j, hj⟩
    · intro k j hj hc
      rw [hp_at] at hj
      by_cases he : k = s.alloc
      · rw [if_pos he] at hj
        cases hj
        refine ⟨ctv.toNat, ?_, ?_⟩
        · show (ctv.toNat : Int) = (runJob s.c_time job ctv).j_core
          show (ctv.toNat : Int) = ctv
          exact hctvnat
        · show ((newJobPreemptState s job ctv kOld old).slots).get? ctv.toNat =
            some (some k)
          rw [show (newJobPreemptState s job ctv kOld old).slots =
            s.slots.set ctv.toNat (some s.alloc) from rfl,
            List.get?_set_eq_of_lt _ hclt, he]
      · rw [if_neg he] at hj
        by_cases he2 : k = kOld
        · rw [if_pos he2] at hj
          cases hj
          rw [evictJob_core] at hc
          exact absurd rfl hc
        · rw [if_neg he2] at hj
          obtain ⟨i0, hi0, hslot0⟩ := c4 k j hj hc
          have hi0ne : i0 ≠ ctv.toNat := by
            intro e
            rw [e, hsl] at hslot0
            cases hslot0
            exact he2 rfl
          refine ⟨i0, hi0, ?_⟩
          rw [show (newJobPreemptState s job ctv kOld old).slots =
            s.slots.set ctv.toNat (some s.alloc) from rfl,
            List.get?_set_ne _ _ (Ne.symm hi0ne)]
          exact hslot0
    · intro i' k hs2
      rw [show (newJobPreemptState s job ctv kOld old).slots =
        s.slots.set ctv.toNat (some s.alloc) from rfl] at hs2
      by_cases he : i' = ctv.toNat
      · subst he
        rw [List.get?_set_eq_of_lt _ hclt] at hs2
        cases hs2
        exact hqperm.mem_iff.mpr (List.mem_cons_self _ _)
      · rw [List.get?_set_ne _ _ (Ne.symm he)] at hs2
        exact hqperm.mem_iff.mpr (List.mem_cons_of_mem _ (c5 i' k hs2))
    · refine nodup_ids_grow s.alloc (runJob s.c_time job ctv) hfresh c3 c6
        ?_ _ hqperm _ ?_ ?_
      · intro k hk j hj hje
        exact hid k hk j hj hje
      · rw [hp_at, if_pos rfl]
        rfl
      · intro k hkne
        rw [hp_at, if_neg hkne]
        by_cases he2 : k = kOld
        · rw [if_pos he2, he2, hold]
          show some (evictJob s.c_time old).job_id = some old.job_id
          rw [evictJob_id]
        · rw [if_neg he2]

/-- Removing the job held by core `cid` from the queue and the heap, and
emptying the slot, leaves the dispatch precondition (shared by the removal
step of `scheduler_job_finished` and the boundary-completion branch of
`scheduler_quantum_expired`). -/
theorem DInv_remove {s : SchedState} {cid i k : Nat} {fin : Job}
    (hI : SchedInv s) (hslG : s.slots.get? cid = some (some k))
    (hqget : s.queue.get? i = some k) (hclt : cid < s.slots.length) :
    DInv (finishRemoveState s i k fin cid) cid := by
  have ⟨c1, c2, c3, c4, c5, c6⟩ := hI
  have hqperm : s.queue.Perm (k :: s.queue.eraseIdx i) :=
    perm_get_cons_eraseIdx _ i k hqget
  have hqnodup : s.queue.Nodup := c6.of_map
  have hknotin : k ∉ s.queue.eraseIdx i := by
    have := hqperm.nodup_iff.mp hqnodup
    exact (List.nodup_cons.mp this).1
  have hmem_erase : ∀ k', k' ∈ s.queue → k' ≠ k → k' ∈ s.queue.eraseIdx i := by
    intro k' hk' hne
    rcases List.mem_cons.mp (hqperm.mem_iff.mp hk') with he | hm
    · exact absurd he hne
    · exact hm
  have hmem_of_erase : ∀ k', k' ∈ s.queue.eraseIdx i → k' ∈ s.queue ∧ k' ≠ k := by
    intro k' hk'
    refine ⟨hqperm.mem_iff.mpr (List.mem_cons_of_mem _ hk'), ?_⟩
    intro he
    rw [he] at hk'
    exact hknotin hk'
  refine ⟨?_, ?_, ?_, ?_, ?_, ?_, ?_, ?_⟩
  · intro i' k' hne hs2
    rw [show (finishRemoveState s i k fin cid).slots =
      s.slots.set cid none from rfl,
      List.get?_set_ne _ _ (Ne.symm hne)] at hs2
    obtain ⟨j, hj, hc, hst⟩ := c1 i' k' hs2
    have hk'ne : k' ≠ k := by
      intro e
      rw [e] at hs2
      exact hne (slots_key_unique hI i' cid k hs2 hslG)
    refine ⟨j, ?_, hc, hst⟩
    show hget (hdel s.heap k) k' = some j
    rw [hget_hdel, if_neg hk'ne]
    exact hj
  · intro k' j hj
    rw [show (finishRemoveState s i k fin cid).heap = hdel s.heap k
      from rfl, hget_hdel] at hj
    show k' < s.alloc
    by_cases he : k' = k
    · rw [if_pos he] at hj; cases hj
    · rw [if_neg he] at hj
      exact c2 k' j hj
  · intro k' hk'
    obtain ⟨hmem, hne⟩ := hmem_of_erase k' hk'
    obtain ⟨j, hj⟩ := c3 k' hmem
    show ∃ j, hget (hdel s.heap k) k' = some j
    rw [hget_hdel, if_neg hne]
    exact ⟨j, hj⟩
  · intro k' j hj hc
    rw [show (finishRemoveState s i k fin cid).heap = hdel s.heap k
      from rfl, hget_hdel] at hj
    by_cases he : k' = k
    · rw [if_pos he] at hj; cases hj
    · rw [if_neg he] at hj
      obtain ⟨i0, hi0, hs0⟩ := c4 k' j hj hc
      have hi0ne : i0 ≠ cid := by
        intro e
        rw [e, hslG] at hs0
        cases hs0
        exact he rfl
      refine ⟨by omega, i0, hi0, ?_⟩
      rw [show (finishRemoveState s i k fin cid).slots =
        s.slots.set cid none from rfl,
        List.get?_set_ne _ _ (Ne.symm hi0ne)]
      exact hs0
  · intro i' k' hne hs2
    rw [show (finishRemoveState s i k fin cid).slots =
      s.slots.set cid none from rfl,
      List.get?_set_ne _ _ (Ne.symm hne)] at hs2
    have hmem := c5 i' k' hs2
    have hk'ne : k' ≠ k := by
      intro e
      rw [e] at hs2
      exact hne (slots_key_unique hI i' cid k hs2 hslG)
    exact hmem_erase k' hmem hk'ne
  · have hcongr : (s.queue.eraseIdx i).map
        (fun k' => (hget (hdel s.heap k) k').map Job.job_id) =
        (s.queue.eraseIdx i).map
        (fun k' => (hget s.heap k').map Job.job_id) := by
      refine List.map_congr_left fun k' hk' => ?_
      rw [hget_hdel, if_neg (hmem_of_erase k' hk').2]
    show ((s.queue.eraseIdx i).map
      (fun k' => (hget (hdel s.heap k) k').map Job.job_id)).Nodup
    rw [hcongr]
    have := (hqperm.map fun k' => (hget s.heap k').map Job.job_id).nodup_iff.mp c6
    simp only [List.map_cons] at this
    exact (List.nodup_cons.mp this).2
  · show cid < (s.slots.set cid none).length
    rw [List.length_set]
    exact hclt
  · intro k' hs2
    rw [show (finishRemoveState s i k fin cid).slots =
      s.slots.set cid none from rfl,
      List.get?_set_eq_of_lt _ hclt] at hs2
    cases hs2

/-- The post-clock-advance body of `scheduler_job_finished` preserves the
invariant when `core_id` is, as documented, the core where the finished job
was located. -/
theorem SchedInv_finishCore {s : SchedState} {core_id job_number r : Int}
    {s' : SchedState} (hI : SchedInv s) (ht : 0 ≤ s.c_time)
    (hloc : ∃ kG jG, s.slots.get? core_id.toNat = some (some kG) ∧
      hget s.heap kG = some jG ∧ jG.job_id = job_number)
    (h : finishCore s core_id job_number = some (r, s')) : SchedInv s' := by
  have ⟨c1, c2, c3, c4, c5, c6⟩ := hI
  obtain ⟨kG, jG, hslG, hjG, hidG⟩ := hloc
  obtain ⟨i, k, fin, hf, hfin, hcnn, hclt, hbr⟩ := finishCore_inv h
  obtain ⟨j2, hj2, hjid⟩ := findJobIdx_found s.heap job_number s.queue 0 i k hf
  have hfj : j2 = fin := by
    rw [hfin] at hj2
    exact (Option.some.inj hj2).symm
  rw [hfj] at hjid
  have hpos := findJobIdx_pos s.heap job_number s.queue 0 i k hf
  have hqget : s.queue.get? i = some k := by simpa using hpos.2.2
  have hilt : i < s.queue.length := by
    have := hpos.2.1
    simpa using this
  have hkmem : k ∈ s.queue := List.get?_mem hqget
  have hkGmem : kG ∈ s.queue := c5 _ kG hslG
  have hkkG : kG = k := by
    apply List.inj_on_of_nodup_map c6 hkGmem hkmem
    rw [hjG, hfin]
    simp only [Option.map_some', Option.some.injEq]
    rw [hidG, hjid]
  rw [hkkG] at hslG
  obtain ⟨jj, hjj, hjjc, _⟩ := c1 core_id.toNat k hslG
  have hjjfin : jj = fin := by
    rw [hfin] at hjj
    exact (Option.some.inj hjj).symm
  rw [hjjfin] at hjjc
  have hqperm : s.queue.Perm (k :: s.queue.eraseIdx i) :=
    perm_get_cons_eraseIdx _ i k hqget
  have hqnodup : s.queue.Nodup := c6.of_map
  have hknotin : k ∉ s.queue.eraseIdx i := by
    have := hqperm.nodup_iff.mp hqnodup
    exact (List.nodup_cons.mp this).1
  have hmem_erase : ∀ k', k' ∈ s.queue → k' ≠ k → k' ∈ s.queue.eraseIdx i := by
    intro k' hk' hne
    rcases List.mem_cons.mp (hqperm.mem_iff.mp hk') with he | hm
    · exact absurd he hne
    · exact hm
  have hmem_of_erase : ∀ k', k' ∈ s.queue.eraseIdx i → k' ∈ s.queue ∧ k' ≠ k := by
    intro k' hk'
    refine ⟨hqperm.mem_iff.mpr (List.mem_cons_of_mem _ hk'), ?_⟩
    intro he
    rw [he] at hk'
    exact hknotin hk'
  have hDI : DInv (finishRemoveState s i k fin core_id.toNat) core_id.toNat := by
    refine ⟨?_, ?_, ?_, ?_, ?_, ?_, ?_, ?_⟩
    · intro i' k' hne hs2
      rw [show (finishRemoveState s i k fin core_id.toNat).slots =
        s.slots.set core_id.toNat none from rfl,
        List.get?_set_ne _ _ (Ne.symm hne)] at hs2
      obtain ⟨j, hj, hc, hst⟩ := c1 i' k' hs2
      have hk'ne : k' ≠ k := by
        intro e
        rw [e] at hs2
        exact hne (slots_key_unique hI i' core_id.toNat k hs2 hslG)
      refine ⟨j, ?_, hc, hst⟩
      show hget (hdel s.heap k) k' = some j
      rw [hget_hdel, if_neg hk'ne]
      exact hj
    · intro k' j hj
      rw [show (finishRemoveState s i k fin core_id.toNat).heap = hdel s.heap k
        from rfl, hget_hdel] at hj
      show k' < s.alloc
      by_cases he : k' = k
      · rw [if_pos he] at hj; cases hj
      · rw [if_neg he] at hj
        exact c2 k' j hj
    · intro k' hk'
      obtain ⟨hmem, hne⟩ := hmem_of_erase k' hk'
      obtain ⟨j, hj⟩ := c3 k' hmem
      show ∃ j, hget (hdel s.heap k) k' = some j
      rw [hget_hdel, if_neg hne]
      exact ⟨j, hj⟩
    · intro k' j hj hc
      rw [show (finishRemoveState s i k fin core_id.toNat).heap = hdel s.heap k
        from rfl, hget_hdel] at hj
      by_cases he : k' = k
      · rw [if_pos he] at hj; cases hj
      · rw [if_neg he] at hj
        obtain ⟨i0, hi0, hs0⟩ := c4 k' j hj hc
        have hi0ne : i0 ≠ core_id.toNat := by
          intro e
          rw [e, hslG] at hs0
          cases hs0
          exact he rfl
        refine ⟨by omega, i0, hi0, ?_⟩
        rw [show (finishRemoveState s i k fin core_id.toNat).slots =
          s.slots.set core_id.toNat none from rfl,
          List.get?_set_ne _ _ (Ne.symm hi0ne)]
        exact hs0
    · intro i' k' hne hs2
      rw [show (finishRemoveState s i k fin core_id.toNat).slots =
        s.slots.set core_id.toNat none from rfl,
        List.get?_set_ne _ _ (Ne.symm hne)] at hs2
      have hmem := c5 i' k' hs2
      have hk'ne : k' ≠ k := by
        intro e
        rw [e] at hs2
        exact hne (slots_key_unique hI i' core_id.toNat k hs2 hslG)
      exact hmem_erase k' hmem hk'ne
    · have hcongr : (s.queue.eraseIdx i).map
          (fun k' => (hget (hdel s.heap k) k').map Job.job_id) =
          (s.queue.eraseIdx i).map
          (fun k' => (hget s.heap k').map Job.job_id) := by
        refine List.map_congr_left fun k' hk' => ?_
        rw [hget_hdel, if_neg (hmem_of_erase k' hk').2]
      show ((s.queue.eraseIdx i).map
        (fun k' => (hget (hdel s.heap k) k').map Job.job_id)).Nodup
      rw [hcongr]
      have := (hqperm.map fun k' => (hget s.heap k').map Job.job_id).nodup_iff.mp c6
      simp only [List.map_cons] at this
      exact (List.nodup_cons.mp this).2
    · show core_id.toNat < (s.slots.set core_id.toNat none).length
      rw [List.length_set]
      exact hclt
    · intro k' hs2
      rw [show (finishRemoveState s i k fin core_id.toNat).slots =
        s.slots.set core_id.toNat none from rfl,
        List.get?_set_eq_of_lt _ hclt] at hs2
      cases hs2
  rcases hbr with ⟨_, _, hs'⟩ | ⟨_, hdisp⟩
  · rw [hs']
    refine SchedInv_of_DInv_idle hDI ?_
    show (s.slots.set core_id.toNat none).get? core_id.toNat = some none
    exact List.get?_set_eq_of_lt _ hclt
  · exact SchedInv_dispatchNext hDI ht hdisp

/-- Rotating the running job of core `cid` off its core and re-offering it
to the queue (lines 352-358 of `scheduler_quantum_expired`) establishes the
dispatch precondition. -/
theorem DInv_requeue {s : SchedState} {cid i k : Nat} {act : Job}
    (hI : SchedInv s) (hsl : s.slots.get? cid = some (some k))
    (hact : hget s.heap k = some act)
    (hqget : s.queue.get? i = some k) (hclt : cid < s.slots.length) :
    DInv (quantumRequeueState s i k act) cid := by
  have ⟨c1, c2, c3, c4, c5, c6⟩ := hI
  have hslots : (quantumRequeueState s i k act).slots = s.slots := rfl
  have hheap : (quantumRequeueState s i k act).heap =
      hput s.heap k { act with j_core := -1, t_updated := s.c_time } := rfl
  have hqperm : s.queue.Perm (k :: s.queue.eraseIdx i) :=
    perm_get_cons_eraseIdx _ i k hqget
  have hperm : (quantumRequeueState s i k act).queue.Perm
      (k :: s.queue.eraseIdx i) := by
    show ((priqueue_offer (compK s.t_scheme (hput s.heap k
      { act with j_core := -1, t_updated := s.c_time }))
      (s.queue.eraseIdx i) k).2).Perm _
    exact priqueue_offer_perm _ _ _
  have hqP : (quantumRequeueState s i k act).queue.Perm s.queue :=
    hperm.trans hqperm.symm
  have hkq1 : k ∈ (quantumRequeueState s i k act).queue :=
    hperm.mem_iff.mpr (List.mem_cons_self _ _)
  refine ⟨?_, ?_, ?_, ?_, ?_, ?_, ?_, ?_⟩
  · intro i' k' hne hs2
    rw [hslots] at hs2
    obtain ⟨j, hj, hc, hst⟩ := c1 i' k' hs2
    have hk'ne : k' ≠ k := by
      intro e
      rw [e] at hs2
      exact hne (slots_key_unique hI i' cid k hs2 hsl)
    refine ⟨j, ?_, hc, hst⟩
    rw [hheap, hget_hput, if_neg hk'ne]
    exact hj
  · intro k' j hj
    show k' < s.alloc
    rw [hheap, hget_hput] at hj
    by_cases he : k' = k
    · subst he
      exact c2 k' act hact
    · rw [if_neg he] at hj
      exact c2 k' j hj
  · intro k' hk'
    have hk'q : k' ∈ s.queue := hqP.mem_iff.mp hk'
    by_cases he : k' = k
    · exact ⟨_, by rw [hheap, hget_hput, if_pos he]⟩
    · obtain ⟨j, hj⟩ := c3 k' hk'q
      exact ⟨j, by rw [hheap, hget_hput, if_neg he]; exact hj⟩
  · intro k' j hj hc
    rw [hheap, hget_hput] at hj
    by_cases he : k' = k
    · rw [if_pos he] at hj
      cases hj
      exact absurd rfl hc
    · rw [if_neg he] at hj
      obtain ⟨i0, hi0, hs0⟩ := c4 k' j hj hc
      have hi0ne : i0 ≠ cid := by
        intro e
        rw [e, hsl] at hs0
        cases hs0
        exact he rfl
      refine ⟨by omega, i0, hi0, ?_⟩
      rw [hslots]
      exact hs0
  · intro i' k' hne hs2
    rw [hslots] at hs2
    exact hqP.mem_iff.mpr (c5 i' k' hs2)
  · have hfeq : ∀ q, (hget (hput s.heap k
        { act with j_core := -1, t_updated := s.c_time }) q).map Job.job_id =
        (hget s.heap q).map Job.job_id := by
      intro q
      rw [hget_hput]
      by_cases he : q = k
      · rw [if_pos he, he, hact]
        rfl
      · rw [if_neg he]
    have hmapeq : ((quantumRequeueState s i k act).queue.map fun k' =>
        (hget (quantumRequeueState s i k act).heap k').map Job.job_id) =
        ((quantumRequeueState s i k act).queue.map fun k' =>
        (hget s.heap k').map Job.job_id) :=
      List.map_congr_left fun k' _ => hfeq k'
    show ((quantumRequeueState s i k act).queue.map fun k' =>
      (hget (quantumRequeueState s i k act).heap k').map Job.job_id).Nodup
    rw [hmapeq]
    exact ((hqP.map fun k' => (hget s.heap k').map Job.job_id).nodup_iff).mpr c6
  · show cid < (quantumRequeueState s i k act).slots.length
    rw [hslots]
    exact hclt
  · intro k' hs2
    rw [hslots, hsl] at hs2
    cases hs2
    refine ⟨hkq1, { act with j_core := -1, t_updated := s.c_time }, ?_, rfl⟩
    rw [hheap, hget_hput, if_pos rfl]

/-- The post-clock-advance body of `scheduler_quantum_expired` preserves the
invariant. -/
theorem SchedInv_quantumCore {s : SchedState} {core_id r : Int}
    {s' : SchedState} (hI : SchedInv s) (ht : 0 ≤ s.c_time)
    (h : quantumCore s core_id = some (r, s')) : SchedInv s' := by
  have ⟨c1, c2, c3, c4, c5, c6⟩ := hI
  rcases quantumCore_inv h with ⟨_, _, hs'⟩ |
    ⟨_, _, hcl, kRun, run, hsl, hrun,
      (⟨hfid, hdisp⟩ | ⟨i, k, act, hfid, hact, (⟨hnz, hdisp⟩ | ⟨hz, hdisp⟩)⟩)⟩
  · rw [hs']
    exact hI
  · -- the running job is queued under its own id, so the search cannot miss
    exact absurd rfl
      (findJobIdx_none s.heap run.job_id s.queue 0 hfid kRun
        (c5 _ _ hsl) run hrun)
  · -- rotation branch: t_remaining ≠ 0
    obtain ⟨j2, hj2, hjid⟩ := findJobIdx_found s.heap run.job_id s.queue 0 i k hfid
    have hfj : j2 = act := by
      rw [hact] at hj2
      exact (Option.some.inj hj2).symm
    rw [hfj] at hjid
    have hpos := findJobIdx_pos s.heap run.job_id s.queue 0 i k hfid
    have hqget : s.queue.get? i = some k := by simpa using hpos.2.2
    have hkmem : k ∈ s.queue := List.get?_mem hqget
    have hkRmem : kRun ∈ s.queue := c5 _ _ hsl
    have hkk : kRun = k := by
      apply List.inj_on_of_nodup_map c6 hkRmem hkmem
      rw [hrun, hact]
      simp only [Option.map_some', Option.some.injEq]
      rw [hjid]
    rw [hkk] at hsl
    exact SchedInv_dispatchNext (DInv_requeue hI hsl hact hqget hcl) ht hdisp
  · -- boundary completion branch: t_remaining = 0
    obtain ⟨j2, hj2, hjid⟩ := findJobIdx_found s.heap run.job_id s.queue 0 i k hfid
    have hfj : j2 = act := by
      rw [hact] at hj2
      exact (Option.some.inj hj2).symm
    rw [hfj] at hjid
    have hpos := findJobIdx_pos s.heap run.job_id s.queue 0 i k hfid
    have hqget : s.queue.get? i = some k := by simpa using hpos.2.2
    have hkmem : k ∈ s.queue := List.get?_mem hqget
    have hkRmem : kRun ∈ s.queue := c5 _ _ hsl
    have hkk : kRun = k := by
      apply List.inj_on_of_nodup_map c6 hkRmem hkmem
      rw [hrun, hact]
      simp only [Option.map_some', Option.some.injEq]
      rw [hjid]
    rw [hkk] at hsl
    have heqs : quantumFinishState s i k act core_id.toNat =
        finishRemoveState s i k act core_id.toNat := rfl
    rw [heqs] at hdisp
    exact SchedInv_dispatchNext (DInv_remove hI hsl hqget hcl) ht hdisp

theorem tick1_job_id (t : Int) (j : Job) : (tick1 t j).job_id = j.job_id := by
  unfold tick1
  by_cases hc : j.t_started = -1 ∧ j.t_updated ≠ t <;> simp [hc]

/-- The states reachable through the documented harness contract: events
carry nonnegative times, an arriving job id matches no job already in the
queue, and `scheduler_job_finished` is called with the core where the
finished job is running. -/
inductive Reachable : SchedState → Prop where
  | start (cores : Nat) (sch : Scheme) :
      Reachable (scheduler_start_up cores sch)
  | newJob {s0 : SchedState} {job_number time running_time priority r : Int}
      {s' : SchedState} (hr : Reachable s0) (ht : 0 ≤ time)
      (hfresh : ∀ k ∈ s0.queue, ∀ j, hget s0.heap k = some j →
        j.job_id ≠ job_number)
      (h : scheduler_new_job s0 job_number time running_time priority =
        some (r, s')) : Reachable s'
  | finished {s0 : SchedState} {core_id job_number time r : Int}
      {s' : SchedState} (hr : Reachable s0) (ht : 0 ≤ time)
      (hloc : ∃ kG jG, s0.slots.get? core_id.toNat = some (some kG) ∧
        hget s0.heap kG = some jG ∧ jG.job_id = job_number)
      (h : scheduler_job_finished s0 core_id job_number time = some (r, s')) :
      Reachable s'
  | quantum {s0 : SchedState} {core_id time r : Int} {s' : SchedState}
      (hr : Reachable s0) (ht : 0 ≤ time)
      (h : scheduler_quantum_expired s0 core_id time = some (r, s')) :
      Reachable s'

/-- Every reachable state satisfies the invariant: the clock advance
preserves it, and each event body preserves it under its guard. -/
theorem SchedInv_reachable {s : SchedState} (hr : Reachable s) : SchedInv s := by
  induction hr with
  | start cores sch => exact SchedInv_start cores sch
  | newJob hr2 ht hfresh h ih =>
    rename_i s0 job_number time running_time priority r s'
    obtain ⟨s1, hinc, hcore⟩ := Option.bind_eq_some.mp h
    obtain ⟨h1, htk, hs1⟩ := increment_timestep_inv hinc
    subst hs1
    have htk2 : tickSlots time s0.heap s0.slots = some h1 := htk
    have hI1 : SchedInv
        { s0 with c_time := time, n_jobs := s0.n_jobs + 1, heap := h1 } :=
      InvC_tick time ih htk2
    have hid2 : ∀ k ∈ s0.queue, ∀ j, hget h1 k = some j →
        j.job_id ≠ job_number := by
      intro k hk j hj he
      have hmap := tickSlots_preserves Job.job_id tick1_job_id time
        s0.slots s0.heap h1 htk2 k
      rw [hj] at hmap
      cases hx : hget s0.heap k with
      | none => rw [hx] at hmap; cases hmap
      | some j0 =>
        rw [hx] at hmap
        simp only [Option.map_some', Option.some.injEq] at hmap
        exact hfresh k hk j0 hx (by rw [← hmap]; exact he)
    exact SchedInv_newJobCore hI1 ht rfl hid2 hcore
  | finished hr2 ht hloc h ih =>
    rename_i s0 core_id job_number time r s'
    obtain ⟨s1, hinc, hcore⟩ := Option.bind_eq_some.mp h
    obtain ⟨h1, htk, hs1⟩ := increment_timestep_inv hinc
    subst hs1
    have htk2 : tickSlots time s0.heap s0.slots = some h1 := htk
    have hI1 : SchedInv { s0 with c_time := time, heap := h1 } :=
      InvC_tick time ih htk2
    obtain ⟨kG, jG, hslG, hjG, hidG⟩ := hloc
    have hmap := tickSlots_preserves Job.job_id tick1_job_id time
      s0.slots s0.heap h1 htk2 kG
    rw [hjG] at hmap
    cases hx : hget h1 kG with
    | none => rw [hx] at hmap; cases hmap
    | some jG' =>
      rw [hx] at hmap
      simp only [Option.map_some', Option.some.injEq] at hmap
      exact SchedInv_finishCore hI1 ht
        ⟨kG, jG', hslG, hx, by rw [hmap]; exact hidG⟩ hcore
  | quantum hr2 ht h ih =>
    rename_i s0 core_id time r s'
    obtain ⟨s1, hinc, hcore⟩ := Option.bind_eq_some.mp h
    obtain ⟨h1, htk, hs1⟩ := increment_timestep_inv hinc
    subst hs1
    have htk2 : tickSlots time s0.heap s0.slots = some h1 := htk
    have hI1 : SchedInv { s0 with c_time := time, heap := h1 } :=
      InvC_tick time ih htk2
    exact SchedInv_quantumCore hI1 ht hcore

/-- C10: in every state reachable between top-level scheduler calls after
`scheduler_start_up` under the documented harness contract (nonnegative
event times, fresh job ids on arrival, `scheduler_job_finished` called with
the core where the finished job runs), the core array and the queue are
mutually consistent: (a) every non-empty core slot `i` holds a job whose
recorded core index equals `i` and whose start timestamp is not the unset
sentinel `-1`; (b) every queued job whose core index is `-1` is referenced
by no core slot; and (c) consequently the never-started branch of the
clock-advance step `tick1` is not taken on any slot-held job, at any event
time. -/
theorem C10_cross_call_consistency {s : SchedState} (hr : Reachable s) :
    (∀ i k, s.slots.get? i = some (some k) →
      ∃ j, hget s.heap k = some j ∧ j.j_core = (i : Int) ∧ j.t_started ≠ -1) ∧
    (∀ k j, k ∈ s.queue → hget s.heap k = some j → j.j_core = -1 →
      ∀ i, s.slots.get? i ≠ some (some k)) ∧
    (∀ t i k, s.slots.get? i = some (some k) → ∀ j, hget s.heap k = some j →
      tick1 t j =
        { j with t_remaining := j.t_remaining - (t - j.t_updated),
                 t_updated := t }) := by
  obtain ⟨c1, c2, c3, c4, c5, c6⟩ := SchedInv_reachable hr
  refine ⟨c1, ?_, ?_⟩
  · intro k j hk hj hc i hs
    obtain ⟨j', hj', hc', _⟩ := c1 i k hs
    rw [hj] at hj'
    cases hj'
    omega
  · intro t i k hs j hj
    obtain ⟨j', hj', _, hst⟩ := c1 i k hs
    rw [hj] at hj'
    cases hj'
    unfold tick1
    rw [if_neg]
    intro hx
    exact hst hx.1

/-- The invariant theorem applied at the concrete freshly started state
(one FCFS core). -/
theorem C10_cross_call_consistency_witness :
    (∀ i k, (scheduler_start_up 1 Scheme.FCFS).slots.get? i = some (some k) →
      ∃ j, hget (scheduler_start_up 1 Scheme.FCFS).heap k = some j ∧
        j.j_core = (i : Int) ∧ j.t_started ≠ -1) ∧
    (∀ k j, k ∈ (scheduler_start_up 1 Scheme.FCFS).queue →
      hget (scheduler_start_up 1 Scheme.FCFS).heap k = some j →
      j.j_core = -1 →
      ∀ i, (scheduler_start_up 1 Scheme.FCFS).slots.get? i ≠ some (some k)) ∧
    (∀ t i k,
      (scheduler_start_up 1 Scheme.FCFS).slots.get? i = some (some k) →
      ∀ j, hget (scheduler_start_up 1 Scheme.FCFS).heap k = some j →
      tick1 t j =
        { j with t_remaining := j.t_remaining - (t - j.t_updated),
                 t_updated := t }) :=
  C10_cross_call_consistency (Reachable.start 1 Scheme.FCFS)
